import Mathlib

/-!
Verification of the state-measurement and Pauli-algebra engine of a
quantum-circuit simulation framework.

The development shallowly embeds two source files:

* `pennylane/pauli/conversion.py` — `pauli_decompose` (dense matrix to a
  linear combination of Pauli words) and `pauli_sentence` (operator tree to
  `PauliSentence`);
* `pennylane/devices/qubit/measure.py` — `get_measurement_function`,
  `state_hamiltonian_expval` and `measure`.

Complex floating-point scalars are modelled exactly by pairs of rationals
(`QC`); machine matrices become functions out of finite index types; Python
exceptions become `Except` values.
-/

/-- Exact complex scalars: rational real and imaginary parts.  The source
operates on complex floating-point arrays; the arithmetic is modelled
exactly. -/
@[ext]
structure QC where
  re : ℚ
  im : ℚ
deriving DecidableEq

namespace QC

instance : Zero QC := ⟨⟨0, 0⟩⟩

instance : One QC := ⟨⟨1, 0⟩⟩

instance : Add QC := ⟨fun a b => ⟨a.re + b.re, a.im + b.im⟩⟩

instance : Neg QC := ⟨fun a => ⟨-a.re, -a.im⟩⟩

/-- Complex multiplication on rational pairs. -/
instance : Mul QC := ⟨fun a b => ⟨a.re * b.re - a.im * b.im, a.re * b.im + a.im * b.re⟩⟩

@[simp] theorem zero_re : (0 : QC).re = 0 := rfl

@[simp] theorem zero_im : (0 : QC).im = 0 := rfl

@[simp] theorem one_re : (1 : QC).re = 1 := rfl

@[simp] theorem one_im : (1 : QC).im = 0 := rfl

@[simp] theorem add_re (a b : QC) : (a + b).re = a.re + b.re := rfl

@[simp] theorem add_im (a b : QC) : (a + b).im = a.im + b.im := rfl

@[simp] theorem neg_re (a : QC) : (-a).re = -a.re := rfl

@[simp] theorem neg_im (a : QC) : (-a).im = -a.im := rfl

@[simp] theorem mul_re (a b : QC) : (a * b).re = a.re * b.re - a.im * b.im := rfl

@[simp] theorem mul_im (a b : QC) : (a * b).im = a.re * b.im + a.im * b.re := rfl

instance : CommRing QC where
  add := (· + ·)
  add_assoc a b c := by ext <;> simp <;> ring
  zero := 0
  zero_add a := by ext <;> simp
  add_zero a := by ext <;> simp
  add_comm a b := by ext <;> simp <;> ring
  mul := (· * ·)
  mul_assoc a b c := by ext <;> simp <;> ring
  one := 1
  one_mul a := by ext <;> simp
  mul_one a := by ext <;> simp
  left_distrib a b c := by ext <;> simp <;> ring
  right_distrib a b c := by ext <;> simp <;> ring
  mul_comm a b := by ext <;> simp <;> ring
  zero_mul a := by ext <;> simp
  mul_zero a := by ext <;> simp
  neg := Neg.neg
  neg_add_cancel a := by ext <;> simp
  nsmul := nsmulRec
  zsmul := zsmulRec

/-- The imaginary unit (`1j` in the source). -/
def i : QC := ⟨0, 1⟩

/-- Complex conjugation (`math.conj` / the dagger in `<psi|H|psi>`). -/
def conj (a : QC) : QC := ⟨a.re, -a.im⟩

/-- Embed a rational as a real complex scalar. -/
def ofRat (q : ℚ) : QC := ⟨q, 0⟩

@[simp] theorem i_re : i.re = 0 := rfl

@[simp] theorem i_im : i.im = 1 := rfl

@[simp] theorem conj_re (a : QC) : (conj a).re = a.re := rfl

@[simp] theorem conj_im (a : QC) : (conj a).im = -a.im := rfl

@[simp] theorem ofRat_re (q : ℚ) : (ofRat q).re = q := rfl

@[simp] theorem ofRat_im (q : ℚ) : (ofRat q).im = 0 := rfl

theorem i_mul_i : i * i = -1 := by
  ext <;> simp

end QC

/-! ## `pennylane/devices/qubit/measure.py`

The measurement-process and observable classes live outside the excerpt, so
their data model is taken from the spec (§3): a return-type tag, an optional
observable, and a declared name on the observable.  The dispatch and
evaluation code below is translated from `measure.py` itself. -/

namespace Qubit

/-- Modelled from the spec: the return-type tag of a `MeasurementProcess`
(§3: "expectation, variance, sample, probability, state, classical-shadow,
…"); the concrete measurement classes are not part of the excerpt. -/
inductive MPKind where
  | expectation
  | variance
  | probability
  | state
  | sample
  | counts
  | classicalShadow
deriving DecidableEq

/-- Modelled from the spec: which return types are "state measurements"
(`isinstance(mp, StateMeasurement)`): §4.3 "any measurement whose semantics
depend only on the final state"; sample-based measurements are delegated
elsewhere. -/
def MPKind.isStateMeasurement : MPKind → Bool
  | .expectation | .variance | .probability | .state => true
  | .sample | .counts | .classicalShadow => false

/-- Modelled from the spec: an observable with a declared name (§3: an atomic
observable "has a name"); only the name is consulted by the dispatch. -/
structure Observable where
  name : String
deriving DecidableEq

/-- Modelled from the spec: a measurement process carries a return-type tag
and an optional observable (§3: "an optional observable (`Operator`, may be
absent …)").  `obs = none` models a Python `mp.obs` equal to `None`. -/
structure MeasurementProcess where
  kind : MPKind
  obs : Option Observable
deriving DecidableEq

/-- The two strategies `get_measurement_function` can return. -/
inductive MeasurementFn where
  | stateDiagonalizingGates
  | stateHamiltonianExpval
deriving DecidableEq

/-- The exceptions `get_measurement_function` can raise: the explicit
`NotImplementedError`, and the `AttributeError` raised by evaluating
`measurementprocess.obs.name` when `obs` is `None`. -/
inductive DispatchError where
  | notImplemented
  | attributeErrorNoneObs
deriving DecidableEq

/-- `get_measurement_function` (`measure.py`, lines 75–96):

```python
if isinstance(measurementprocess, StateMeasurement):
    if isinstance(measurementprocess, ExpectationMP) and measurementprocess.obs.name in (
        "Hamiltonian", "SparseHamiltonian"):
        return state_hamiltonian_expval
    return state_diagonalizing_gates
raise NotImplementedError
```

Python's `and` short-circuits, so `mp.obs.name` is only evaluated when the
process is an `ExpectationMP`; when `mp.obs` is `None` the attribute access
itself raises. -/
def get_measurement_function (mp : MeasurementProcess) : Except DispatchError MeasurementFn :=
  if mp.kind.isStateMeasurement then
    if mp.kind = .expectation then
      match mp.obs with
      | none => .error .attributeErrorNoneObs
      | some o =>
        if o.name = "Hamiltonian" ∨ o.name = "SparseHamiltonian" then
          .ok .stateHamiltonianExpval
        else
          .ok .stateDiagonalizingGates
    else
      .ok .stateDiagonalizingGates
  else
    .error .notImplemented

/-- `measure` (`measure.py`, lines 99–109):
`return get_measurement_function(measurementprocess)(measurementprocess, state)`.
The numeric meaning of each strategy is supplied by the caller as `diagFn`
and `spFn` (they involve the external `apply_operation` / `process_state`
collaborators), so `measure` is the dispatch followed by the application of
the selected strategy. -/
def measure {S R : Type} (diagFn spFn : MeasurementProcess → S → R)
    (mp : MeasurementProcess) (state : S) : Except DispatchError R :=
  match get_measurement_function mp with
  | .error e => .error e
  | .ok .stateDiagonalizingGates => .ok (diagFn mp state)
  | .ok .stateHamiltonianExpval => .ok (spFn mp state)

/-- Stated from the claim C2's words, for comparison with
`get_measurement_function`: (1) not a state measurement — not implemented;
(2) an expectation value whose observable's declared name is "Hamiltonian"
or "SparseHamiltonian" — sparse strategy; (3) every other case — the
diagonalizing-gate strategy. -/
def claimedDispatchC2 (mp : MeasurementProcess) : Except DispatchError MeasurementFn :=
  if ¬ mp.kind.isStateMeasurement then
    .error .notImplemented
  else if mp.kind = .expectation ∧ (∃ o, mp.obs = some o ∧
      (o.name = "Hamiltonian" ∨ o.name = "SparseHamiltonian")) then
    .ok .stateHamiltonianExpval
  else
    .ok .stateDiagonalizingGates

/-- The claim C2 amended as the code forces: an expectation-value process
with no observable present does not fall through to the diagonalizing-gate
strategy; the unguarded `mp.obs.name` access fails instead. -/
def amendedDispatchC2 (mp : MeasurementProcess) : Except DispatchError MeasurementFn :=
  if ¬ mp.kind.isStateMeasurement then
    .error .notImplemented
  else if mp.kind = .expectation ∧ mp.obs = none then
    .error .attributeErrorNoneObs
  else if mp.kind = .expectation ∧ (∃ o, mp.obs = some o ∧
      (o.name = "Hamiltonian" ∨ o.name = "SparseHamiltonian")) then
    .ok .stateHamiltonianExpval
  else
    .ok .stateDiagonalizingGates

/-- `state_hamiltonian_expval` (`measure.py`, lines 49–72).  The state is
already flattened to a vector of length `N`; `H` stands for
`mp.obs.sparse_matrix(wire_order)` (an external capability, spec §6), with
the sparse representation modelled by its entries.  The four `let`s mirror
`bra`, `ket`, `new_ket = H @ ket` and `res = bra @ new_ket`; the return
value is `math.real(res)`. -/
def state_hamiltonian_expval {N : ℕ} (H : Fin N → Fin N → QC) (s : Fin N → QC) : ℚ :=
  let bra : Fin N → QC := fun a => QC.conj (s a)
  let ket : Fin N → QC := s
  let new_ket : Fin N → QC := fun a => ∑ b, H a b * ket b
  let res : QC := ∑ a, bra a * new_ket a
  res.re

/-- The quadratic form `conj(state) · H · state` written directly, used to
state the claims about `state_hamiltonian_expval`. -/
def quadForm {N : ℕ} (H : Fin N → Fin N → QC) (s : Fin N → QC) : QC :=
  ∑ a, ∑ b, QC.conj (s a) * H a b * s b

end Qubit

/-! ## Pauli term model and `pauli_sentence` (`pennylane/pauli/conversion.py`)

`PauliWord`/`PauliSentence` live in `pauli_arithmetic.py`, outside the
excerpt; they are modelled from the spec (§3, §4.1).  The operator variants
and the `_pauli_sentence` dispatch are translated from `conversion.py`. -/

namespace Pauli

/-- The four Pauli symbols. -/
inductive PLetter where
  | I
  | X
  | Y
  | Z
deriving DecidableEq

/-- Modelled from the spec (§3): a Pauli word is a mapping from wires to
symbols, wires not present being implicitly `I`.  Represented as an
association list kept sorted by wire with no explicit `I` entries; all
operations below preserve that canonical shape. -/
abbrev PauliWord := List (ℕ × PLetter)

/-- Modelled from the spec (§3): a Pauli sentence maps Pauli words to
complex coefficients; represented as an association list with unique
words. -/
abbrev PauliSentence := List (PauliWord × QC)

/-- Modelled from the spec (§3): the single-qubit Pauli group multiplication
table with phases — `X·Y = iZ`, `Y·Z = iX`, `Z·X = iY`, the anti-commuted
products pick up a `−i` phase, squares give `I`, and `I` is neutral. -/
def mulLetter : PLetter → PLetter → PLetter × QC
  | .I, p => (p, 1)
  | p, .I => (p, 1)
  | .X, .X => (.I, 1)
  | .Y, .Y => (.I, 1)
  | .Z, .Z => (.I, 1)
  | .X, .Y => (.Z, QC.i)
  | .Y, .X => (.Z, -QC.i)
  | .Y, .Z => (.X, QC.i)
  | .Z, .Y => (.X, -QC.i)
  | .Z, .X => (.Y, QC.i)
  | .X, .Z => (.Y, -QC.i)

/-- Modelled from the spec (§4.1 `multiply`): multiply two Pauli words
per-wire, accumulating the phase multiplicatively; wires appearing in only
one operand pass through unchanged with phase 1. -/
def mulWord : PauliWord → PauliWord → PauliWord × QC
  | [], b => (b, 1)
  | a :: t1, [] => (a :: t1, 1)
  | (w1, l1) :: t1, (w2, l2) :: t2 =>
    if w1 < w2 then
      let r := mulWord t1 ((w2, l2) :: t2)
      ((w1, l1) :: r.1, r.2)
    else if w2 < w1 then
      let r := mulWord ((w1, l1) :: t1) t2
      ((w2, l2) :: r.1, r.2)
    else
      let m := mulLetter l1 l2
      let r := mulWord t1 t2
      (if m.1 = PLetter.I then r.1 else (w1, m.1) :: r.1, m.2 * r.2)
termination_by a b => a.length + b.length
decreasing_by all_goals simp [List.length] <;> omega

/-- Add one `(word, coefficient)` term into a sentence, merging coefficients
of an already-present word (spec §4.1: "key-wise merge"). -/
def addTerm : PauliSentence → PauliWord → QC → PauliSentence
  | [], w, c => [(w, c)]
  | (w0, c0) :: t, w, c =>
    if w0 = w then (w0, c0 + c) :: t else (w0, c0) :: addTerm t w c

/-- Modelled from the spec (§4.1 `sentence_add`): key-wise merge, summing
coefficients for identical words; zero-valued entries are not pruned. -/
def sAdd (a b : PauliSentence) : PauliSentence :=
  b.foldl (fun acc wc => addTerm acc wc.1 wc.2) a

/-- Modelled from the spec (§4.1 `sentence_multiply`): distribute over both
operands, multiply the words, fold the resulting phase into the coefficient
product, and accumulate under the product word. -/
def sMul (a b : PauliSentence) : PauliSentence :=
  a.foldl (fun acc wc1 =>
    b.foldl (fun acc2 wc2 =>
      let m := mulWord wc1.1 wc2.1
      addTerm acc2 m.1 (wc1.2 * wc2.2 * m.2)) acc) []

/-- Modelled from the spec (§4.1 `sentence_scalar_multiply`): scales every
coefficient of the sentence by the scalar. -/
def sScale (s : QC) (a : PauliSentence) : PauliSentence :=
  a.map fun wc => (wc.1, s * wc.2)

/-- The operator variants dispatched on by `_pauli_sentence`
(`conversion.py`, lines 198–266): the registered atomic observables
`PauliX`, `PauliY`, `PauliZ`, `Identity`; the composites `Tensor`, `Prod`,
`Sum`; the wrappers `SProd` and the legacy `Hamiltonian`
(parallel coefficient/term sequences); and any unregistered operator
variant (`other`, e.g. a continuous rotation gate), which falls to the
`@singledispatch` default. -/
inductive Op where
  | pauliX (w : ℕ)
  | pauliY (w : ℕ)
  | pauliZ (w : ℕ)
  | identity (w : ℕ)
  | tensor (obs : List Op)
  | prod (factors : List Op)
  | sprod (scalar : QC) (base : Op)
  | hamiltonian (coeffs : List QC) (ops : List Op)
  | sum (summands : List Op)
  | other (name : String)

mutual

/-- A printable name for an operator, standing for Python's `repr` in the
error message `f"... got: {op}"`. -/
def Op.render : Op → String
  | .pauliX w => "PauliX(wires=[" ++ toString w ++ "])"
  | .pauliY w => "PauliY(wires=[" ++ toString w ++ "])"
  | .pauliZ w => "PauliZ(wires=[" ++ toString w ++ "])"
  | .identity w => "Identity(wires=[" ++ toString w ++ "])"
  | .tensor fs => "Tensor(" ++ Op.renderList fs ++ ")"
  | .prod fs => "Prod(" ++ Op.renderList fs ++ ")"
  | .sprod _ b => "SProd(scalar, " ++ Op.render b ++ ")"
  | .hamiltonian _ ops => "Hamiltonian(coeffs, [" ++ Op.renderList ops ++ "])"
  | .sum fs => "Sum(" ++ Op.renderList fs ++ ")"
  | .other n => n

/-- Comma-separated rendering of a list of operators. -/
def Op.renderList : List Op → String
  | [] => ""
  | [o] => Op.render o
  | o :: t => Op.render o ++ ", " ++ Op.renderList t

end

mutual

/-- Modelled from the spec: `is_pauli_word` (`pauli/utils.py`, outside the
excerpt): §4.2 — a factor is a pure Pauli word factor when it is a
single-qubit Pauli or identity, a tensor of such factors being a Pauli word
as well; "no mixed superpositions". -/
def isPauliWordOp : Op → Bool
  | .pauliX _ => true
  | .pauliY _ => true
  | .pauliZ _ => true
  | .identity _ => true
  | .tensor fs => isPauliWordAll fs
  | _ => false

/-- `is_pauli_word` on every element of a list. -/
def isPauliWordAll : List Op → Bool
  | [] => true
  | o :: t => isPauliWordOp o && isPauliWordAll t

end

/-- The message of the `ValueError` raised by `_pauli_sentence`
(`conversion.py`, lines 198–201): the operator must be a linear combination
of Pauli operators, naming the offending operator. -/
def unsupportedMsg (op : Op) : String :=
  "Op must be a linear combination of Pauli operators only, got: " ++ Op.render op

/-- The `TypeError` Python's `reduce` raises on an empty iterable with no
initial value (reachable only through a composite with no operands). -/
def reduceEmptyMsg : String :=
  "TypeError: reduce() of empty iterable with no initial value"

/-- `reduce(lambda a, b: a * b, factors)` over already-converted factors. -/
def reduceMul : List PauliSentence → Except String PauliSentence
  | [] => .error reduceEmptyMsg
  | h :: t => .ok (t.foldl sMul h)

/-- `reduce(lambda a, b: a + b, summands)` over already-converted summands. -/
def reduceAdd : List PauliSentence → Except String PauliSentence
  | [] => .error reduceEmptyMsg
  | h :: t => .ok (t.foldl sAdd h)

mutual

/-- `_pauli_sentence` (`conversion.py`, lines 198–266), the
`@singledispatch` private conversion:

* `PauliX`/`PauliY`/`PauliZ` — the single-term sentence with coefficient 1;
* `Identity` — the empty-word sentence with coefficient 1;
* `Tensor` — guarded by `is_pauli_word(op)`, else the `ValueError`; then the
  factors are converted and folded with sentence multiplication;
* `Prod` — factors converted and folded with sentence multiplication, the
  first failing factor's error propagating;
* `SProd` — the base is converted and every coefficient is multiplied by
  the scalar (`ps[pw] = coeff * op.scalar`);
* `Hamiltonian` — guarded by `is_pauli_word` on every term, else the
  `ValueError`; each term is converted, scaled by its coefficient
  (`ps[pw] = coeff * sub_coeff`), and the summands folded with sentence
  addition (the empty Hamiltonian giving the empty sentence);
* `Sum` — summands converted and folded with sentence addition;
* any other variant — the dispatch default raises the `ValueError`. -/
def _pauli_sentence : Op → Except String PauliSentence
  | .pauliX w => .ok [([(w, .X)], 1)]
  | .pauliY w => .ok [([(w, .Y)], 1)]
  | .pauliZ w => .ok [([(w, .Z)], 1)]
  | .identity _ => .ok [([], 1)]
  | .tensor fs =>
    if isPauliWordOp (.tensor fs) then
      match sentenceList fs with
      | .error e => .error e
      | .ok ss => reduceMul ss
    else
      .error (unsupportedMsg (.tensor fs))
  | .prod fs =>
    match sentenceList fs with
    | .error e => .error e
    | .ok ss => reduceMul ss
  | .sprod s b =>
    match _pauli_sentence b with
    | .error e => .error e
    | .ok ps => .ok (ps.map fun wc => (wc.1, wc.2 * s))
  | .hamiltonian cs ops =>
    if isPauliWordAll ops then
      match weightedSummands cs ops with
      | .error e => .error e
      | .ok [] => .ok []
      | .ok (h :: t) => .ok (t.foldl sAdd h)
    else
      .error (unsupportedMsg (.hamiltonian cs ops))
  | .sum fs =>
    match sentenceList fs with
    | .error e => .error e
    | .ok ss => reduceAdd ss
  | .other n => .error (unsupportedMsg (.other n))

/-- Convert each operator of a list in order, propagating the first error
(the lazy generator fed to `reduce` in the source). -/
def sentenceList : List Op → Except String (List PauliSentence)
  | [] => .ok []
  | o :: t =>
    match _pauli_sentence o with
    | .error e => .error e
    | .ok ps =>
      match sentenceList t with
      | .error e => .error e
      | .ok rest => .ok (ps :: rest)

/-- The `Hamiltonian` loop `for coeff, term in zip(*op.terms())`: convert
each term and scale its coefficients by the term's coefficient; `zip` stops
at the shorter sequence. -/
def weightedSummands : List QC → List Op → Except String (List PauliSentence)
  | _, [] => .ok []
  | [], _ :: _ => .ok []
  | c :: cs, o :: ops =>
    match _pauli_sentence o with
    | .error e => .error e
    | .ok ps =>
      match weightedSummands cs ops with
      | .error e => .error e
      | .ok rest => .ok ((ps.map fun wc => (wc.1, c * wc.2)) :: rest)

end

/-- `pauli_sentence` (`conversion.py`, lines 180–195): if the operator
already carries a cached `PauliSentence` (`op._pauli_rep is not None`),
return it directly; otherwise dispatch to `_pauli_sentence`.  The memoized
`_pauli_rep` attribute is modelled as the explicit `cachedRep` argument. -/
def pauli_sentence (cachedRep : Option PauliSentence) (op : Op) : Except String PauliSentence :=
  match cachedRep with
  | some ps => .ok ps
  | none => _pauli_sentence op

mutual

/-- Well-formed operator trees: every composite owns at least one child
operator (spec §3: composites own "an ordered sequence of child operators";
the framework's composite constructors require operands). -/
def Op.wf : Op → Bool
  | .pauliX _ => true
  | .pauliY _ => true
  | .pauliZ _ => true
  | .identity _ => true
  | .tensor fs => !fs.isEmpty && Op.wfAll fs
  | .prod fs => !fs.isEmpty && Op.wfAll fs
  | .sprod _ b => Op.wf b
  | .hamiltonian _ ops => Op.wfAll ops
  | .sum fs => !fs.isEmpty && Op.wfAll fs
  | .other _ => true

/-- Well-formedness of every operator in a list. -/
def Op.wfAll : List Op → Bool
  | [] => true
  | o :: t => Op.wf o && Op.wfAll t

end

end Pauli

/-! ## `pauli_decompose` (`pennylane/pauli/conversion.py`, lines 31–177)

The `2^n × 2^n` array reshaped by the source to shape `(2,)*(2n)` is
modelled as a function of `n` row bits and `n` column bits (axis 0 the most
significant bit of the flat index, as in a row-major `reshape`).  The flat
`ℕ`-indexed input matrix is charted onto bit indices through `ofBits`. -/

namespace Pauli

/-- A `2^n × 2^n` complex matrix in reshaped form: `n` row axes and `n`
column axes of dimension 2 each. -/
abbrev BMat (n : ℕ) := (Fin n → Bool) → (Fin n → Bool) → QC

/-- Flat index of a big-endian bit vector: bit `0` is the most significant
(row-major `reshape` convention). -/
def ofBits : {n : ℕ} → (Fin n → Bool) → ℕ
  | 0, _ => 0
  | n + 1, v => (if v 0 then 2 ^ n else 0) + ofBits (fun i : Fin n => v i.succ)

/-- Big-endian bit vector of a flat index (inverse chart to `ofBits` below
`2^n`). -/
def toBits (n k : ℕ) : Fin n → Bool :=
  fun i => k.testBit (n - 1 - (i : ℕ))

/-- The XOR permutation (`conversion.py`, lines 130–134): `indices[k]` is
built by cumulatively XOR-ing `(idx+1) ^ idx`, which telescopes to
`indices[k][j] = j ^ k`, so `term_mat[k, j] = matrix[k, j ^ k]`.  On the
reshaped axes the bitwise `^` of flat indices is the per-axis `xor` of row
and column bits. -/
def xorPermute {n : ℕ} (M : BMat n) : BMat n :=
  fun r c => M r (fun i => xor (c i) (r i))

/-- One pass of the butterfly loop (`conversion.py`, lines 140–148) for the
qubit axis `q`: with `a`/`b` the slices where row bit `q` is 0/1, the tuple
assignment puts `a + b` at row bit 0 and `a − b` at row bit 1
(simultaneously, the right-hand side being evaluated first), and the final
`term_mat[c] *= 1j` multiplies the already-updated entries with row bit 1
*and* column bit 1 by `i` (the index list still has `index[idx] = 1` when
`index[idx + num_qubits]` is set to 1). -/
def butterflyStep {n : ℕ} (q : Fin n) (T : BMat n) : BMat n :=
  fun r c =>
    let a := T (Function.update r q false) c
    let b := T (Function.update r q true) c
    if r q then (if c q then (a - b) * QC.i else a - b) else a + b

/-- The Hadamard-transform loop `for idx in range(num_qubits)`
(`conversion.py`, lines 140–148), one butterfly pass per qubit axis in
order. -/
def hadamardSteps (n : ℕ) (T : BMat n) : BMat n :=
  (List.finRange n).foldl (fun t q => butterflyStep q t) T

/-- Division of a complex entry by a natural number (`term_mat /= shape[0]`),
exact on rational parts. -/
def QC.divN (z : QC) (m : ℕ) : QC := ⟨z.re / m, z.im / m⟩

/-- The normalization `term_mat /= shape[0]` (`conversion.py`, line 149)
with `shape[0] = 2^n`. -/
def normalizeStep (n : ℕ) (T : BMat n) : BMat n :=
  fun r c => QC.divN (T r c) (2 ^ n)

/-- Row bit of a Pauli symbol — `(rep in "YZ")` (`conversion.py`,
line 157). -/
def zbit : PLetter → Bool
  | .Y | .Z => true
  | .I | .X => false

/-- Column bit of a Pauli symbol — `(rep in "XY")` (`conversion.py`,
line 157). -/
def xbit : PLetter → Bool
  | .X | .Y => true
  | .I | .Z => false

/-- Reading one coefficient off the transformed tensor
(`conversion.py`, lines 156–159): the row index packs the `(rep in "YZ")`
bits, the column index the `(rep in "XY")` bits, both big-endian. -/
def coeffAt {n : ℕ} (T : BMat n) (p : Fin n → PLetter) : QC :=
  T (fun i => zbit (p i)) (fun i => xbit (p i))

/-- The enumeration `product("IXYZ", repeat=num_qubits)` (`conversion.py`,
line 155): all length-`n` Pauli strings, the first position varying
slowest. -/
def allStrings : (n : ℕ) → List (Fin n → PLetter)
  | 0 => [fun i => i.elim0]
  | n + 1 => [PLetter.I, PLetter.X, PLetter.Y, PLetter.Z].flatMap
      (fun l => (allStrings n).map (Fin.cons l))

/-- The two parallel `terms` lists accumulated by the extraction loop
(`conversion.py`, line 154): coefficients and, for each kept term, its list
of `(symbol, wire)` factors.  The final packaging into a `Hamiltonian` or a
`PauliSentence` (classes outside the excerpt) keeps exactly these parallel
lists. -/
structure DecompTerms where
  coeffs : List QC
  obs : List (List (PLetter × ℕ))

/-- The `(symbol, wire)` factor list `[(o, w) for w, o in zip(wire_order,
pauli_rep)]` of one kept term (`conversion.py`, line 165). -/
def mkObs (n : ℕ) (ws : List ℕ) (p : Fin n → PLetter) : List (PLetter × ℕ) :=
  (ws.zip ((List.finRange n).map p)).map fun wo => (wo.2, wo.1)

/-- One iteration of the extraction loop (`conversion.py`, lines 155–169):
read the coefficient at this Pauli string; if it is non-negligible
(`not allclose(coefficient, 0)`, idealized to exact non-zero), build the
`(symbol, wire)` factors — suppressing identities when `hide_identity` is
set and the string is not the pure identity — and append the term when the
factor list is non-empty. -/
def termStep (n : ℕ) (T : BMat n) (hide_identity : Bool) (ws : List ℕ)
    (acc : DecompTerms) (p : Fin n → PLetter) : DecompTerms :=
  let coefficient := coeffAt T p
  let repList := (List.finRange n).map p
  if coefficient ≠ 0 then
    let observables :=
      if hide_identity && !(repList.all fun t => t = PLetter.I) then
        ((ws.zip repList).filter fun wo => wo.2 ≠ PLetter.I).map fun wo => (wo.2, wo.1)
      else
        mkObs n ws p
    if observables.isEmpty then acc
    else ⟨acc.coeffs ++ [coefficient], acc.obs ++ [observables]⟩
  else acc

/-- The extraction loop of `pauli_decompose` (`conversion.py`,
lines 154–169): fold `termStep` over all Pauli strings, starting from the
empty pair of `terms` lists. -/
def buildTerms (n : ℕ) (T : BMat n) (hide_identity : Bool) (ws : List ℕ) : DecompTerms :=
  (allStrings n).foldl (termStep n T hide_identity ws) ⟨[], []⟩

/-- The whole transform pipeline after validation: XOR permutation,
butterfly passes, normalization, then the extraction loop. -/
def decomposeCore (n : ℕ) (Mb : BMat n) (hide_identity : Bool) (ws : List ℕ) : DecompTerms :=
  buildTerms n (normalizeStep n (hadamardSteps n (xorPermute Mb))) hide_identity ws

/-- `ValueError` message for a non-square input (`conversion.py`,
lines 113–116). -/
def squareMsg (rows cols : ℕ) : String :=
  "The matrix should be square, got (" ++ toString rows ++ ", " ++ toString cols ++
    "). Use padding=True for rectangular matrices."

/-- `ValueError` message for a square input whose side is not a power of two
(`conversion.py`, lines 119–120). -/
def powMsg (rows cols : ℕ) : String :=
  "Dimension of the matrix should be a power of 2, got (" ++ toString rows ++ ", " ++
    toString cols ++ ")"

/-- `ValueError` message for a wire-order length mismatch (`conversion.py`,
lines 122–125). -/
def wireCountMsg (nwires nqubits : ℕ) : String :=
  "number of wires " ++ toString nwires ++ " is not compatible with the number of qubits " ++
    toString nqubits

/-- The `OverflowError` Python raises for `int(log2(0))` (`np.log2(0)` is
`-inf` and `int(-inf)` cannot convert): reached by a 0-sized input. -/
def overflowMsg : String :=
  "OverflowError: cannot convert float infinity to integer"

/-- `pauli_decompose` (`conversion.py`, lines 31–177):

* with `padding=True` (lines 103–110): `num_qubits = int(ceil(log2(max(shape))))`
  and, when the shape is not already square of side `2^num_qubits`, both
  axes are zero-padded at the end up to `2^num_qubits`;
* square check (lines 112–116), then `num_qubits = int(log2(shape[0]))`
  (line 118; `⌊log2⌋` for a positive side, an `OverflowError` for side 0)
  and the power-of-two check (lines 119–120);
* optional wire-order length check (lines 122–125), the default wire order
  being `range(num_qubits)` (lines 127–128);
* then the transform and extraction pipeline (`decomposeCore`).

The flat matrix is charted onto the `(2,)*(2*num_qubits)` reshape through
`ofBits` (big-endian, row-major). -/
def pauli_decompose (rows cols : ℕ) (M : ℕ → ℕ → QC) (hide_identity : Bool)
    (wire_order : Option (List ℕ)) (padding : Bool) : Except String DecompTerms :=
  let padded : Except String (ℕ × ℕ × (ℕ → ℕ → QC)) :=
    if padding then
      if max rows cols = 0 then .error overflowMsg
      else
        let nq := Nat.clog 2 (max rows cols)
        if rows ≠ cols ∨ rows ≠ 2 ^ nq then
          .ok (2 ^ nq, 2 ^ nq, fun a b => if a < rows ∧ b < cols then M a b else 0)
        else .ok (rows, cols, M)
    else .ok (rows, cols, M)
  match padded with
  | .error e => .error e
  | .ok (r, c, Mp) =>
    if r ≠ c then .error (squareMsg r c)
    else if r = 0 then .error overflowMsg
    else
      let n := Nat.log2 r
      if r ≠ 2 ^ n then .error (powMsg r c)
      else
        match wire_order with
        | some ws =>
          if ws.length ≠ n then .error (wireCountMsg ws.length n)
          else .ok (decomposeCore n (fun v w => Mp (ofBits v) (ofBits w)) hide_identity ws)
        | none =>
          .ok (decomposeCore n (fun v w => Mp (ofBits v) (ofBits w)) hide_identity
            ((List.finRange n).map Fin.val))

/-- The 2×2 Pauli matrices named by the decomposition's labels, entries
indexed by (row bit, column bit) — the standard I, X, Y, Z. -/
def pmat : PLetter → Bool → Bool → QC
  | .I, a, b => if a = b then 1 else 0
  | .X, a, b => if a = b then 0 else 1
  | .Y, false, false => 0
  | .Y, false, true => -QC.i
  | .Y, true, false => QC.i
  | .Y, true, true => 0
  | .Z, a, b => if a = b then (if a then -1 else 1) else 0

/-- Kronecker product of a term's Pauli factors as a bit-indexed matrix:
factor `j` of the factor list acts on axis `j` (the decomposition emits the
factors in wire order). -/
def kronTerm (n : ℕ) (obs : List (PLetter × ℕ)) : BMat n :=
  fun a b => ∏ i : Fin n, pmat (obs.getD (i : ℕ) (PLetter.I, 0)).1 (a i) (b i)

/-- Re-expansion of a decomposition: the sum over its terms of the
coefficient times the Kronecker product of the term's Pauli factors. -/
def reconstruct (n : ℕ) (t : DecompTerms) : BMat n :=
  fun a b => ((t.coeffs.zip t.obs).map fun co => co.1 * kronTerm n co.2 a b).sum

end Pauli

/-! ## Round-trip machinery for `pauli_decompose` -/

namespace Pauli

theorem ofBits_lt {n : ℕ} (v : Fin n → Bool) : ofBits v < 2 ^ n := by
  induction n with
  | zero => simp [ofBits]
  | succ n ih =>
    have h := ih (fun i : Fin n => v i.succ)
    by_cases hv : v 0 <;> simp [ofBits, hv, pow_succ] <;> omega

theorem ofBits_toBits {n : ℕ} (k : ℕ) (hk : k < 2 ^ n) : ofBits (toBits n k) = k := by
  induction n generalizing k with
  | zero =>
    have : k = 0 := by omega
    simp [this, ofBits]
  | succ n ih =>
    have htail : (fun i : Fin n => toBits (n + 1) k i.succ) = toBits n (k % 2 ^ n) := by
      funext i
      have h2 : n - 1 - (i : ℕ) < n := by omega
      show k.testBit (n + 1 - 1 - ((i.succ : Fin (n + 1)) : ℕ))
        = (k % 2 ^ n).testBit (n - 1 - (i : ℕ))
      rw [Nat.testBit_mod_two_pow, decide_eq_true h2, Bool.true_and, Fin.val_succ]
      congr 1
      omega
    have hmod : k % 2 ^ n < 2 ^ n := Nat.mod_lt _ (Nat.pos_pow_of_pos n (by omega))
    have hd := Nat.div_add_mod k (2 ^ n)
    have hdlt : k / 2 ^ n < 2 := by
      apply Nat.div_lt_of_lt_mul
      rw [pow_succ] at hk
      omega
    have hhead : toBits (n + 1) k 0 = k.testBit n := by
      simp [toBits]
    have hbit : k.testBit n = decide (k / 2 ^ n % 2 = 1) := Nat.testBit_to_div_mod
    rw [ofBits, htail, ih _ hmod, hhead]
    have h01 : k / 2 ^ n = 0 ∨ k / 2 ^ n = 1 := by
      revert hdlt
      generalize k / 2 ^ n = d
      intro hdlt
      omega
    rcases h01 with h0 | h0 <;> rw [h0] at hd <;> rw [hbit, h0] <;>
      simp at hd ⊢ <;> omega

/-- Phase factor accumulated by the butterfly passes over a set of
already-processed qubit axes: `i` wherever row and column bit are both
set. -/
def phaseProd {n : ℕ} (S : Finset (Fin n)) (r c : Fin n → Bool) : QC :=
  ∏ q ∈ S, (if r q && c q then QC.i else 1)

/-- Sign factor of the Walsh part of the butterfly passes over a set of
already-processed qubit axes. -/
def signProd {n : ℕ} (S : Finset (Fin n)) (r k : Fin n → Bool) : QC :=
  ∏ q ∈ S, (if r q && k q then (-1 : QC) else 1)

/-- Closed form of the butterfly passes over the set `S` of processed axes:
phases times a partial Walsh transform of the rows, columns untouched. -/
def PT {n : ℕ} (S : Finset (Fin n)) (T : BMat n) : BMat n :=
  fun r c =>
    phaseProd S r c *
      ∑ k : Fin n → Bool,
        (if ∀ q, q ∉ S → k q = r q then signProd S r k * T k c else 0)

theorem PT_empty {n : ℕ} (T : BMat n) : PT (∅ : Finset (Fin n)) T = T := by
  funext r c
  simp only [PT, phaseProd, signProd, Finset.prod_empty, one_mul]
  have h1 : ∀ k : Fin n → Bool,
      (if ∀ q, q ∉ (∅ : Finset (Fin n)) → k q = r q then T k c else 0)
        = (if k = r then T k c else 0) := by
    intro k
    by_cases h : k = r
    · subst h
      simp
    · rw [if_neg, if_neg h]
      intro hall
      exact h (funext fun q => hall q (Finset.not_mem_empty q))
  rw [Finset.sum_congr rfl fun k _ => h1 k]
  simp

theorem indicator_update {n : ℕ} {S : Finset (Fin n)} {q : Fin n} (hq : q ∉ S)
    (r k : Fin n → Bool) (b : Bool) :
    (∀ p, p ∉ S → k p = Function.update r q b p) ↔
      (k q = b ∧ ∀ p, p ∉ insert q S → k p = r p) := by
  constructor
  · intro h
    refine ⟨by simpa using h q hq, ?_⟩
    intro p hp
    have hpq : p ≠ q := fun e => hp (e ▸ Finset.mem_insert_self q S)
    have hpS : p ∉ S := fun e => hp (Finset.mem_insert_of_mem e)
    have := h p hpS
    rwa [Function.update_noteq hpq] at this
  · rintro ⟨hkq, h⟩ p hpS
    by_cases hpq : p = q
    · subst hpq
      simpa using hkq
    · rw [Function.update_noteq hpq]
      exact h p (by simp [Finset.mem_insert, hpq, hpS])

theorem phaseProd_update {n : ℕ} {S : Finset (Fin n)} {q : Fin n} (hq : q ∉ S)
    (r c : Fin n → Bool) (b : Bool) :
    phaseProd S (Function.update r q b) c = phaseProd S r c := by
  refine Finset.prod_congr rfl fun p hp => ?_
  have hpq : p ≠ q := fun e => hq (e ▸ hp)
  rw [Function.update_noteq hpq]

theorem signProd_update {n : ℕ} {S : Finset (Fin n)} {q : Fin n} (hq : q ∉ S)
    (r k : Fin n → Bool) (b : Bool) :
    signProd S (Function.update r q b) k = signProd S r k := by
  refine Finset.prod_congr rfl fun p hp => ?_
  have hpq : p ≠ q := fun e => hq (e ▸ hp)
  rw [Function.update_noteq hpq]

theorem phaseProd_insert {n : ℕ} {S : Finset (Fin n)} {q : Fin n} (hq : q ∉ S)
    (r c : Fin n → Bool) :
    phaseProd (insert q S) r c = (if r q && c q then QC.i else 1) * phaseProd S r c :=
  Finset.prod_insert hq

theorem signProd_insert {n : ℕ} {S : Finset (Fin n)} {q : Fin n} (hq : q ∉ S)
    (r k : Fin n → Bool) :
    signProd (insert q S) r k = (if r q && k q then (-1 : QC) else 1) * signProd S r k :=
  Finset.prod_insert hq

theorem PT_update_eq {n : ℕ} {S : Finset (Fin n)} {q : Fin n} (hq : q ∉ S) (T : BMat n)
    (r c : Fin n → Bool) (b : Bool) :
    PT S T (Function.update r q b) c
      = phaseProd S r c *
          ∑ k : Fin n → Bool,
            (if k q = b ∧ (∀ p, p ∉ insert q S → k p = r p)
              then signProd S r k * T k c else 0) := by
  rw [PT, phaseProd_update hq]
  congr 1
  refine Finset.sum_congr rfl fun k _ => ?_
  by_cases h : ∀ p, p ∉ S → k p = Function.update r q b p
  · rw [if_pos h, if_pos ((indicator_update hq r k b).mp h), signProd_update hq]
  · rw [if_neg h, if_neg fun hh => h ((indicator_update hq r k b).mpr hh)]


theorem butterflyStep_PT {n : ℕ} (q : Fin n) (S : Finset (Fin n)) (hq : q ∉ S) (T : BMat n) :
    butterflyStep q (PT S T) = PT (insert q S) T := by
  funext r c
  have hRHS : PT (insert q S) T r c
      = ((if r q && c q then QC.i else 1) * phaseProd S r c) *
          ∑ k : Fin n → Bool,
            (if ∀ p, p ∉ insert q S → k p = r p
              then ((if r q && k q then (-1 : QC) else 1) * signProd S r k) * T k c
              else 0) := by
    rw [PT, phaseProd_insert hq]
    congr 1
    refine Finset.sum_congr rfl fun k _ => ?_
    rw [signProd_insert hq]
  have hmergeSub :
      (phaseProd S r c *
          ∑ k : Fin n → Bool,
            (if k q = false ∧ (∀ p, p ∉ insert q S → k p = r p)
              then signProd S r k * T k c else 0)) -
        (phaseProd S r c *
          ∑ k : Fin n → Bool,
            (if k q = true ∧ (∀ p, p ∉ insert q S → k p = r p)
              then signProd S r k * T k c else 0))
      = phaseProd S r c *
          ∑ k : Fin n → Bool,
            (if ∀ p, p ∉ insert q S → k p = r p
              then ((if k q then (-1 : QC) else 1) * signProd S r k) * T k c
              else 0) := by
    rw [← mul_sub, ← Finset.sum_sub_distrib]
    congr 1
    refine Finset.sum_congr rfl fun k _ => ?_
    by_cases hind : ∀ p, p ∉ insert q S → k p = r p
    · by_cases hkq : k q
      · have hf : ¬(k q = false ∧ ∀ p, p ∉ insert q S → k p = r p) := by
          rintro ⟨h1, h2⟩
          rw [hkq] at h1
          exact absurd h1 (by simp)
        rw [if_neg hf, if_pos ⟨hkq, hind⟩, if_pos hind, if_pos hkq]
        ring
      · have hkf : k q = false := by simpa using hkq
        rw [if_pos ⟨hkf, hind⟩, if_neg fun h => hkq h.1, if_pos hind, if_neg hkq]
        ring
    · rw [if_neg fun h => hind h.2, if_neg fun h => hind h.2, if_neg hind]
      ring
  have hmergeAdd :
      (phaseProd S r c *
          ∑ k : Fin n → Bool,
            (if k q = false ∧ (∀ p, p ∉ insert q S → k p = r p)
              then signProd S r k * T k c else 0)) +
        (phaseProd S r c *
          ∑ k : Fin n → Bool,
            (if k q = true ∧ (∀ p, p ∉ insert q S → k p = r p)
              then signProd S r k * T k c else 0))
      = phaseProd S r c *
          ∑ k : Fin n → Bool,
            (if ∀ p, p ∉ insert q S → k p = r p
              then signProd S r k * T k c else 0) := by
    rw [← mul_add, ← Finset.sum_add_distrib]
    congr 1
    refine Finset.sum_congr rfl fun k _ => ?_
    by_cases hind : ∀ p, p ∉ insert q S → k p = r p
    · by_cases hkq : k q
      · have hf : ¬(k q = false ∧ ∀ p, p ∉ insert q S → k p = r p) := by
          rintro ⟨h1, h2⟩
          rw [hkq] at h1
          exact absurd h1 (by simp)
        rw [if_neg hf, if_pos ⟨hkq, hind⟩, if_pos hind]
        ring
      · have hkf : k q = false := by simpa using hkq
        rw [if_pos ⟨hkf, hind⟩, if_neg fun h => hkq h.1, if_pos hind]
        ring
    · rw [if_neg fun h => hind h.2, if_neg fun h => hind h.2, if_neg hind]
      ring
  show (let a := PT S T (Function.update r q false) c
        let b := PT S T (Function.update r q true) c
        if r q then (if c q then (a - b) * QC.i else a - b) else a + b)
      = PT (insert q S) T r c
  simp only [PT_update_eq hq]
  by_cases hrq : r q
  · rw [if_pos hrq]
    have hR2 : PT (insert q S) T r c
        = ((if c q then QC.i else 1) * phaseProd S r c) *
            ∑ k : Fin n → Bool,
              (if ∀ p, p ∉ insert q S → k p = r p
                then ((if k q then (-1 : QC) else 1) * signProd S r k) * T k c
                else 0) := by
      rw [hRHS]
      simp only [hrq, Bool.true_and]
    rw [hR2]
    by_cases hcq : c q
    · rw [if_pos hcq, if_pos hcq, hmergeSub]
      ring
    · rw [if_neg hcq, if_neg hcq, hmergeSub]
      ring
  · rw [if_neg hrq]
    have hb : r q = false := by simpa using hrq
    have hR3 : PT (insert q S) T r c
        = phaseProd S r c *
            ∑ k : Fin n → Bool,
              (if ∀ p, p ∉ insert q S → k p = r p
                then signProd S r k * T k c else 0) := by
      rw [hRHS]
      simp [hb]
    rw [hR3, hmergeAdd]

theorem foldl_butterfly_PT {n : ℕ} (T : BMat n) :
    ∀ (L : List (Fin n)) (S : Finset (Fin n)), L.Nodup → (∀ q ∈ L, q ∉ S) →
      L.foldl (fun t q => butterflyStep q t) (PT S T) = PT (S ∪ L.toFinset) T := by
  intro L
  induction L with
  | nil =>
    intro S _ _
    simp
  | cons q L ih =>
    intro S hnd hdis
    have hq : q ∉ S := hdis q (List.mem_cons_self q L)
    have hdis2 : ∀ p ∈ L, p ∉ insert q S := by
      intro p hp
      rw [Finset.mem_insert]
      push_neg
      exact ⟨fun e => (List.nodup_cons.mp hnd).1 (e ▸ hp),
        hdis p (List.mem_cons_of_mem q hp)⟩
    have hset : insert q S ∪ L.toFinset = S ∪ (q :: L).toFinset := by
      ext p
      simp only [List.toFinset_cons, Finset.mem_union, Finset.mem_insert, List.mem_toFinset]
      tauto
    simp only [List.foldl_cons]
    rw [butterflyStep_PT q S hq T, ih (insert q S) (List.nodup_cons.mp hnd).2 hdis2, hset]

theorem hadamardSteps_PT {n : ℕ} (T : BMat n) : hadamardSteps n T = PT Finset.univ T := by
  have h := foldl_butterfly_PT T (List.finRange n) ∅ (List.nodup_finRange n) (by simp)
  have hset : (∅ : Finset (Fin n)) ∪ (List.finRange n).toFinset = Finset.univ := by
    simp
  rw [PT_empty, hset] at h
  rw [hadamardSteps, h]

theorem PT_univ_apply {n : ℕ} (T : BMat n) (r c : Fin n → Bool) :
    PT Finset.univ T r c
      = phaseProd Finset.univ r c *
          ∑ k : Fin n → Bool, signProd Finset.univ r k * T k c := by
  rw [PT]
  congr 1
  refine Finset.sum_congr rfl fun k _ => ?_
  rw [if_pos]
  intro p hp
  exact absurd (Finset.mem_univ p) hp

theorem pmat_eq (l : PLetter) (a b : Bool) :
    pmat l a b
      = (if zbit l && xbit l then QC.i else 1) *
          ((if zbit l && b then (-1 : QC) else 1) *
            (if a = xor b (xbit l) then (1 : QC) else 0)) := by
  cases l <;> cases a <;> cases b <;> simp [pmat, zbit, xbit]

theorem kron_split {n : ℕ} (p : Fin n → PLetter) (a b : Fin n → Bool) :
    (∏ i : Fin n, pmat (p i) (a i) (b i))
      = (∏ i : Fin n, (if zbit (p i) && xbit (p i) then QC.i else 1)) *
          ((∏ i : Fin n, (if zbit (p i) && b i then (-1 : QC) else 1)) *
            (∏ i : Fin n, (if a i = xor (b i) (xbit (p i)) then (1 : QC) else 0))) := by
  rw [← Finset.prod_mul_distrib, ← Finset.prod_mul_distrib]
  exact Finset.prod_congr rfl fun i _ => pmat_eq (p i) (a i) (b i)

theorem prod_delta {n : ℕ} (a b x : Fin n → Bool) :
    (∏ i : Fin n, (if a i = xor (b i) (x i) then (1 : QC) else 0))
      = if x = (fun i => xor (a i) (b i)) then 1 else 0 := by
  by_cases h : x = fun i => xor (a i) (b i)
  · rw [if_pos h]
    refine Finset.prod_eq_one fun i _ => ?_
    rw [if_pos]
    rw [show x i = xor (a i) (b i) from congrFun h i]
    cases a i <;> cases b i <;> rfl
  · rw [if_neg h]
    have hex : ∃ i, ¬(a i = xor (b i) (x i)) := by
      by_contra hc
      push_neg at hc
      apply h
      funext i
      have h2 : ∀ u v w : Bool, u = xor v w → w = xor u v := by decide
      exact h2 (a i) (b i) (x i) (hc i)
    obtain ⟨i, hi⟩ := hex
    exact Finset.prod_eq_zero (Finset.mem_univ i) (by rw [if_neg hi])

instance : Fintype PLetter :=
  ⟨⟨[PLetter.I, PLetter.X, PLetter.Y, PLetter.Z], by decide⟩, fun x => by cases x <;> decide⟩

/-- The bijection between Pauli symbols and their (row bit, column bit)
index pair: I ↔ (0,0), X ↔ (0,1), Y ↔ (1,1), Z ↔ (1,0). -/
def letterEquiv : PLetter ≃ Bool × Bool where
  toFun l := (zbit l, xbit l)
  invFun zx :=
    match zx with
    | (false, false) => PLetter.I
    | (false, true) => PLetter.X
    | (true, true) => PLetter.Y
    | (true, false) => PLetter.Z
  left_inv l := by cases l <;> rfl
  right_inv zx := by
    rcases zx with ⟨z, x⟩
    cases z <;> cases x <;> rfl

@[simp] theorem zbit_letterEquiv_symm (z x : Bool) :
    zbit (letterEquiv.symm (z, x)) = z := by
  cases z <;> cases x <;> rfl

@[simp] theorem xbit_letterEquiv_symm (z x : Bool) :
    xbit (letterEquiv.symm (z, x)) = x := by
  cases z <;> cases x <;> rfl

/-- The pointwise extension of `letterEquiv`: a pair of bit vectors (row
bits, column bits) determines a Pauli string. -/
def pairsToStrings (n : ℕ) : ((Fin n → Bool) × (Fin n → Bool)) ≃ (Fin n → PLetter) where
  toFun zx := fun i => letterEquiv.symm (zx.1 i, zx.2 i)
  invFun p := (fun i => zbit (p i), fun i => xbit (p i))
  left_inv := by
    rintro ⟨z, x⟩
    refine Prod.ext ?_ ?_ <;> funext i <;> simp
  right_inv p := by
    funext i
    show letterEquiv.symm (letterEquiv (p i)) = p i
    exact letterEquiv.symm_apply_apply (p i)

theorem sum_pletter_pi {n : ℕ} (f : (Fin n → PLetter) → QC) :
    ∑ p : Fin n → PLetter, f p
      = ∑ z : Fin n → Bool, ∑ x : Fin n → Bool,
          f (fun i => letterEquiv.symm (z i, x i)) := by
  rw [← Equiv.sum_comp (pairsToStrings n) f, Fintype.sum_prod_type]
  rfl

/-- `ofRat` as a ring homomorphism. -/
def ofRatHom : ℚ →+* QC where
  toFun := QC.ofRat
  map_one' := by ext <;> simp
  map_mul' p q := by ext <;> simp
  map_zero' := by ext <;> simp
  map_add' p q := by ext <;> simp

theorem divN_eq (z : QC) (m : ℕ) : QC.divN z m = QC.ofRat (1 / (m : ℚ)) * z := by
  ext <;> simp [QC.divN] <;> ring

theorem phase_sq {n : ℕ} (z x : Fin n → Bool) :
    phaseProd Finset.univ z x * phaseProd Finset.univ z x
      = ∏ i : Fin n, (if z i && x i then (-1 : QC) else 1) := by
  rw [phaseProd, ← Finset.prod_mul_distrib]
  refine Finset.prod_congr rfl fun i _ => ?_
  by_cases h : z i && x i
  · rw [if_pos h, if_pos h, QC.i_mul_i]
  · rw [if_neg h, if_neg h, one_mul]

theorem coeffAt_closed {n : ℕ} (Mb : BMat n) (p : Fin n → PLetter) :
    coeffAt (normalizeStep n (hadamardSteps n (xorPermute Mb))) p
      = QC.divN
          (phaseProd Finset.univ (fun i => zbit (p i)) (fun i => xbit (p i)) *
            ∑ k : Fin n → Bool,
              signProd Finset.univ (fun i => zbit (p i)) k *
                Mb k (fun i => xor (xbit (p i)) (k i)))
          (2 ^ n) := by
  rw [coeffAt, normalizeStep, hadamardSteps_PT, PT_univ_apply]
  rfl

theorem ofRat_mul (p q : ℚ) : QC.ofRat p * QC.ofRat q = QC.ofRat (p * q) := by
  ext <;> simp

theorem ofRat_pow (q : ℚ) (m : ℕ) : QC.ofRat q ^ m = QC.ofRat (q ^ m) := by
  induction m with
  | zero => ext <;> simp
  | succ m ih => rw [pow_succ, pow_succ, ih, ofRat_mul]

theorem decompose_fourier {n : ℕ} (Mb : BMat n) (a b : Fin n → Bool) :
    (∑ p : Fin n → PLetter,
        coeffAt (normalizeStep n (hadamardSteps n (xorPermute Mb))) p *
          (∏ i : Fin n, pmat (p i) (a i) (b i)))
      = Mb a b := by
  classical
  rw [sum_pletter_pi]
  have hfold : ∀ z x : Fin n → Bool,
      (∏ i : Fin n, (if z i && x i then QC.i else 1)) = phaseProd Finset.univ z x :=
    fun z x => rfl
  have hsum1 : ∀ z x : Fin n → Bool,
      coeffAt (normalizeStep n (hadamardSteps n (xorPermute Mb)))
          (fun i => letterEquiv.symm (z i, x i)) *
        (∏ i : Fin n, pmat (letterEquiv.symm (z i, x i)) (a i) (b i))
      = if x = (fun i => xor (a i) (b i)) then
          QC.ofRat (1 / ((2 ^ n : ℕ) : ℚ)) *
            ((phaseProd Finset.univ z x *
                ∑ k : Fin n → Bool,
                  signProd Finset.univ z k * Mb k (fun i => xor (x i) (k i))) *
              (phaseProd Finset.univ z x *
                ∏ i : Fin n, (if z i && b i then (-1 : QC) else 1)))
        else 0 := by
    intro z x
    rw [coeffAt_closed, kron_split, divN_eq]
    simp only [zbit_letterEquiv_symm, xbit_letterEquiv_symm]
    rw [prod_delta, hfold]
    by_cases hx : x = fun i => xor (a i) (b i)
    · rw [if_pos hx, if_pos hx]
      ring
    · rw [if_neg hx, if_neg hx]
      ring
  rw [Finset.sum_congr rfl fun z _ => Finset.sum_congr rfl fun x _ => hsum1 z x]
  simp only [Finset.sum_ite_eq', Finset.mem_univ, if_true]
  have hGz : ∀ z : Fin n → Bool,
      QC.ofRat (1 / ((2 ^ n : ℕ) : ℚ)) *
          ((phaseProd Finset.univ z (fun i => xor (a i) (b i)) *
              ∑ k : Fin n → Bool,
                signProd Finset.univ z k *
                  Mb k (fun i => xor (xor (a i) (b i)) (k i))) *
            (phaseProd Finset.univ z (fun i => xor (a i) (b i)) *
              ∏ i : Fin n, (if z i && b i then (-1 : QC) else 1)))
        = QC.ofRat (1 / ((2 ^ n : ℕ) : ℚ)) *
            ∑ k : Fin n → Bool,
              (∏ i : Fin n,
                ((if z i && xor (a i) (b i) then (-1 : QC) else 1) *
                    (if z i && b i then (-1 : QC) else 1)) *
                  (if z i && k i then (-1 : QC) else 1)) *
                Mb k (fun i => xor (xor (a i) (b i)) (k i)) := by
    intro z
    congr 1
    rw [mul_mul_mul_comm, phase_sq, Finset.sum_mul, Finset.mul_sum]
    refine Finset.sum_congr rfl fun k _ => ?_
    have hmerge :
        (∏ i : Fin n,
            ((if z i && xor (a i) (b i) then (-1 : QC) else 1) *
                (if z i && b i then (-1 : QC) else 1)) *
              (if z i && k i then (-1 : QC) else 1))
          = ((∏ i : Fin n, (if z i && xor (a i) (b i) then (-1 : QC) else 1)) *
              (∏ i : Fin n, (if z i && b i then (-1 : QC) else 1))) *
              signProd Finset.univ z k := by
      rw [Finset.prod_mul_distrib, Finset.prod_mul_distrib]
      rfl
    rw [hmerge]
    have hbeta : (∏ i : Fin n,
        (if z i && (fun i => xor (a i) (b i)) i then (-1 : QC) else 1))
          = ∏ i : Fin n, (if z i && xor (a i) (b i) then (-1 : QC) else 1) := rfl
    rw [hbeta]
    ring
  rw [Finset.sum_congr rfl fun z _ => hGz z]
  rw [← Finset.mul_sum, Finset.sum_comm]
  have hcol : ∀ k : Fin n → Bool,
      (∑ z : Fin n → Bool,
          (∏ i : Fin n,
            ((if z i && xor (a i) (b i) then (-1 : QC) else 1) *
                (if z i && b i then (-1 : QC) else 1)) *
              (if z i && k i then (-1 : QC) else 1)) *
            Mb k (fun i => xor (xor (a i) (b i)) (k i)))
        = (∏ i : Fin n, (if a i = k i then QC.ofRat 2 else 0)) *
            Mb k (fun i => xor (xor (a i) (b i)) (k i)) := by
    intro k
    rw [← Finset.sum_mul]
    congr 1
    rw [← Fintype.prod_sum
      (fun i zb => ((if zb && xor (a i) (b i) then (-1 : QC) else 1) *
          (if zb && b i then (-1 : QC) else 1)) * (if zb && k i then (-1 : QC) else 1))]
    refine Finset.prod_congr rfl fun i _ => ?_
    rw [Fintype.sum_bool]
    cases ha : a i <;> cases hb : b i <;> cases hk : k i <;>
      simp [QC.ofRat] <;> ext <;> simp <;> norm_num
  rw [Finset.sum_congr rfl fun k _ => hcol k]
  have hprod : ∀ k : Fin n → Bool,
      (∏ i : Fin n, (if a i = k i then QC.ofRat 2 else 0))
        = if k = a then QC.ofRat ((2 : ℚ) ^ n) else 0 := by
    intro k
    by_cases hk : k = a
    · rw [if_pos hk, hk]
      calc (∏ i : Fin n, (if a i = a i then QC.ofRat 2 else 0))
          = ∏ i : Fin n, QC.ofRat 2 := Finset.prod_congr rfl fun i _ => if_pos rfl
        _ = QC.ofRat 2 ^ Fintype.card (Fin n) := Finset.prod_const _
        _ = QC.ofRat ((2 : ℚ) ^ n) := by rw [Fintype.card_fin, ofRat_pow]
    · rw [if_neg hk]
      have hex : ∃ i, ¬(a i = k i) := by
        by_contra hc
        push_neg at hc
        exact hk (funext fun i => (hc i).symm)
      obtain ⟨i, hi⟩ := hex
      exact Finset.prod_eq_zero (Finset.mem_univ i) (if_neg hi)
  rw [Finset.sum_congr rfl fun k _ => by rw [hprod k, ite_mul, zero_mul]]
  simp only [Finset.sum_ite_eq', Finset.mem_univ, if_true]
  have hxba : (fun i => xor (xor (a i) (b i)) (a i)) = b := by
    funext i
    cases a i <;> cases b i <;> rfl
  rw [hxba, ← mul_assoc, ofRat_mul]
  have hc : 1 / ((2 ^ n : ℕ) : ℚ) * (2 : ℚ) ^ n = 1 := by
    push_cast
    field_simp
  rw [hc]
  show QC.ofRat 1 * Mb a b = Mb a b
  rw [show QC.ofRat 1 = 1 from rfl, one_mul]

/-- The Kronecker product of the Pauli matrices named by a Pauli string. -/
def kronRep (n : ℕ) (p : Fin n → PLetter) : BMat n :=
  fun a b => ∏ i : Fin n, pmat (p i) (a i) (b i)

theorem length_mkObs {n : ℕ} (ws : List ℕ) (hws : ws.length = n) (p : Fin n → PLetter) :
    (mkObs n ws p).length = n := by
  simp [mkObs, hws]

theorem kronTerm_mkObs {n : ℕ} (ws : List ℕ) (hws : ws.length = n) (p : Fin n → PLetter)
    (a b : Fin n → Bool) :
    kronTerm n (mkObs n ws p) a b = kronRep n p a b := by
  unfold kronTerm kronRep
  refine Finset.prod_congr rfl fun i _ => ?_
  have hi : (i : ℕ) < (mkObs n ws p).length := by
    rw [length_mkObs ws hws p]
    exact i.isLt
  rw [List.getD_eq_getElem _ _ hi]
  simp only [mkObs, List.getElem_map, List.getElem_zip, List.getElem_finRange]
  refine congrArg (fun j : Fin n => pmat (p j) (a i) (b i)) ?_
  apply Fin.ext
  simp

theorem reconstruct_append {n : ℕ} (cs : List QC) (os : List (List (PLetter × ℕ)))
    (h : cs.length = os.length) (c : QC) (o : List (PLetter × ℕ)) (a b : Fin n → Bool) :
    reconstruct n ⟨cs ++ [c], os ++ [o]⟩ a b
      = reconstruct n ⟨cs, os⟩ a b + c * kronTerm n o a b := by
  unfold reconstruct
  rw [show (⟨cs ++ [c], os ++ [o]⟩ : DecompTerms).coeffs = cs ++ [c] from rfl,
    show (⟨cs ++ [c], os ++ [o]⟩ : DecompTerms).obs = os ++ [o] from rfl,
    List.zip_append h, List.map_append, List.sum_append]
  simp

theorem mem_allStrings {n : ℕ} (p : Fin n → PLetter) : p ∈ allStrings n := by
  induction n with
  | zero =>
    rw [allStrings]
    have : p = fun i : Fin 0 => i.elim0 := funext fun i => i.elim0
    rw [this]
    exact List.mem_singleton.mpr rfl
  | succ n ih =>
    rw [allStrings]
    rw [List.mem_flatMap]
    refine ⟨p 0, ?_, ?_⟩
    · cases h0 : p 0 <;> simp
    · rw [List.mem_map]
      exact ⟨Fin.tail p, ih (Fin.tail p), Fin.cons_self_tail p⟩

theorem nodup_allStrings (n : ℕ) : (allStrings n).Nodup := by
  induction n with
  | zero =>
    rw [allStrings]
    exact List.nodup_singleton _
  | succ n ih =>
    rw [allStrings]
    rw [List.nodup_flatMap]
    constructor
    · intro l _
      exact ih.map (Fin.cons_right_injective (α := fun _ : Fin (n + 1) => PLetter) l)
    · have hinj : ∀ (l l' : PLetter) (u v : Fin n → PLetter),
          (Fin.cons l u : Fin (n + 1) → PLetter) = Fin.cons l' v → l = l' := by
        intro l l' u v h
        have h0 := congrFun h 0
        simpa using h0
      have hne : List.Pairwise (fun l l' : PLetter => l ≠ l')
          [PLetter.I, PLetter.X, PLetter.Y, PLetter.Z] := by decide
      refine hne.imp ?_
      intro l l' hll x hx hx2
      rw [List.mem_map] at hx hx2
      obtain ⟨u, _, hu⟩ := hx
      obtain ⟨v, _, hv⟩ := hx2
      exact hll (hinj l l' u v (hu.trans hv.symm))

theorem toFinset_allStrings (n : ℕ) :
    (allStrings n).toFinset = (Finset.univ : Finset (Fin n → PLetter)) :=
  Finset.eq_univ_iff_forall.mpr fun p => List.mem_toFinset.mpr (mem_allStrings p)

theorem sum_allStrings {n : ℕ} (f : (Fin n → PLetter) → QC) :
    ((allStrings n).map f).sum = ∑ p : Fin n → PLetter, f p := by
  rw [← List.sum_toFinset f (nodup_allStrings n), toFinset_allStrings]

theorem mkObs_isEmpty_false {n : ℕ} (ws : List ℕ) (hws : ws.length = n) (hn : 1 ≤ n)
    (p : Fin n → PLetter) : (mkObs n ws p).isEmpty = false := by
  have h := length_mkObs ws hws p
  cases hobs : mkObs n ws p with
  | nil =>
    rw [hobs] at h
    simp at h
    omega
  | cons x t => rfl

theorem termStep_zero {n : ℕ} (T : BMat n) (ws : List ℕ) (acc : DecompTerms)
    (p : Fin n → PLetter) (hc : coeffAt T p = 0) :
    termStep n T false ws acc p = acc := by
  simp only [termStep]
  rw [if_neg (not_not_intro hc)]

theorem termStep_push {n : ℕ} (T : BMat n) (ws : List ℕ) (hws : ws.length = n) (hn : 1 ≤ n)
    (acc : DecompTerms) (p : Fin n → PLetter) (hc : ¬(coeffAt T p = 0)) :
    termStep n T false ws acc p
      = ⟨acc.coeffs ++ [coeffAt T p], acc.obs ++ [mkObs n ws p]⟩ := by
  simp only [termStep, Bool.false_and, Bool.false_eq_true, if_false]
  rw [if_pos hc, if_neg]
  rw [mkObs_isEmpty_false ws hws hn p]
  exact Bool.false_ne_true

theorem recon_foldl {n : ℕ} (T : BMat n) (ws : List ℕ) (hws : ws.length = n) (hn : 1 ≤ n)
    (a b : Fin n → Bool) :
    ∀ (l : List (Fin n → PLetter)) (acc : DecompTerms),
      acc.coeffs.length = acc.obs.length →
      reconstruct n (l.foldl (termStep n T false ws) acc) a b
        = reconstruct n acc a b + ((l.map fun p => coeffAt T p * kronRep n p a b).sum) := by
  intro l
  induction l with
  | nil =>
    intro acc hacc
    simp
  | cons p l ih =>
    intro acc hacc
    rw [List.foldl_cons, List.map_cons, List.sum_cons]
    by_cases hc : coeffAt T p = 0
    · rw [termStep_zero T ws acc p hc, ih acc hacc, hc, zero_mul, zero_add]
    · rw [termStep_push T ws hws hn acc p hc]
      rw [ih _ (by simp [hacc])]
      rw [reconstruct_append acc.coeffs acc.obs hacc (coeffAt T p) (mkObs n ws p) a b]
      rw [show (⟨acc.coeffs, acc.obs⟩ : DecompTerms) = acc from rfl]
      rw [kronTerm_mkObs ws hws p a b]
      ring

theorem reconstruct_buildTerms {n : ℕ} (T : BMat n) (ws : List ℕ) (hws : ws.length = n)
    (hn : 1 ≤ n) (a b : Fin n → Bool) :
    reconstruct n (buildTerms n T false ws) a b
      = ∑ p : Fin n → PLetter, coeffAt T p * kronRep n p a b := by
  rw [buildTerms, recon_foldl T ws hws hn a b (allStrings n) ⟨[], []⟩ rfl]
  rw [show reconstruct n ⟨[], []⟩ a b = 0 from rfl, zero_add, sum_allStrings]

/-- Core round-trip: with the default visibility settings, re-expanding the
extracted terms against the Kronecker products of their Pauli factors gives
back the (reshaped) input matrix. -/
theorem decomposeCore_roundtrip {n : ℕ} (Mb : BMat n) (ws : List ℕ) (hws : ws.length = n)
    (hn : 1 ≤ n) (a b : Fin n → Bool) :
    reconstruct n (decomposeCore n Mb false ws) a b = Mb a b := by
  rw [decomposeCore, reconstruct_buildTerms _ ws hws hn a b]
  exact decompose_fourier Mb a b

end Pauli

namespace Pauli

theorem log2_two_pow (n : ℕ) : Nat.log2 (2 ^ n) = n := by
  rw [Nat.log2_eq_log_two, Nat.log_pow (by omega)]

/-- Evaluation of `pauli_decompose` on a well-sized input: a `2^n × 2^n`
matrix with no padding and the default wire order reaches the transform
pipeline. -/
theorem pauli_decompose_pow2 {n : ℕ} (M : ℕ → ℕ → QC) (hide : Bool) :
    pauli_decompose (2 ^ n) (2 ^ n) M hide none false
      = .ok (decomposeCore n (fun v w => M (ofBits v) (ofBits w)) hide
          ((List.finRange n).map Fin.val)) := by
  have hlog : Nat.log2 (2 ^ n) = n := log2_two_pow n
  have hne : (2 : ℕ) ^ n ≠ 0 := by positivity
  simp [pauli_decompose, hlog, hne]
  rw [hlog]

/-- Evaluation on a `1 × 1` matrix: zero qubits, and the extraction loop
keeps no term, whatever the entry. -/
theorem pauli_decompose_one (M : ℕ → ℕ → QC) (hide : Bool) :
    pauli_decompose 1 1 M hide none false = .ok ⟨[], []⟩ := by
  have h := pauli_decompose_pow2 (n := 0) M hide
  rw [show (2 : ℕ) ^ 0 = 1 from rfl] at h
  rw [h]
  congr 1
  rw [decomposeCore, buildTerms]
  rw [show allStrings 0 = [fun i : Fin 0 => i.elim0] from rfl]
  rw [List.foldl_cons, List.foldl_nil]
  simp only [termStep]
  by_cases hc : coeffAt
      (normalizeStep 0 (hadamardSteps 0 (xorPermute fun v w => M (ofBits v) (ofBits w))))
      (fun i : Fin 0 => i.elim0) = 0
  · rw [if_neg (not_not_intro hc)]
  · rw [if_pos hc]
    cases hide <;> simp [mkObs]

theorem not_pow2_log2 {r : ℕ} (hnp : ¬∃ k, r = 2 ^ k) : r ≠ 2 ^ Nat.log2 r := by
  intro h
  exact hnp ⟨Nat.log2 r, h⟩

/-- Evaluation of `pauli_decompose` on a non-square input without padding:
the square check fails. -/
theorem pauli_decompose_nonsquare (rows cols : ℕ) (M : ℕ → ℕ → QC) (hide : Bool)
    (wo : Option (List ℕ)) (h : rows ≠ cols) :
    pauli_decompose rows cols M hide wo false = .error (squareMsg rows cols) := by
  simp [pauli_decompose, h]

/-- Evaluation of `pauli_decompose` on a square input whose positive side is
not a power of two, without padding: the power-of-two check fails. -/
theorem pauli_decompose_notpow2 (r : ℕ) (M : ℕ → ℕ → QC) (hide : Bool)
    (wo : Option (List ℕ)) (h1 : 1 ≤ r) (hnp : ¬∃ k, r = 2 ^ k) :
    pauli_decompose r r M hide wo false = .error (powMsg r r) := by
  have h0 : r ≠ 0 := by omega
  have hpow : r ≠ 2 ^ Nat.log2 r := not_pow2_log2 hnp
  simp [pauli_decompose, h0, hpow]

/-- Evaluation of `pauli_decompose` on a 0-sized input without padding: the
`int(log2(0))` conversion fails with an `OverflowError`, not a dimension
error. -/
theorem pauli_decompose_zero_size (M : ℕ → ℕ → QC) (hide : Bool) (wo : Option (List ℕ)) :
    pauli_decompose 0 0 M hide wo false = .error overflowMsg := by
  simp [pauli_decompose]

/-- Evaluation of `pauli_decompose` with `padding=True` on a square matrix
whose side is positive and not a power of two: the matrix is zero-padded to
the next power of two on both axes and the pipeline runs on the padded
matrix. -/
theorem pauli_decompose_padding {r : ℕ} (M : ℕ → ℕ → QC) (hide : Bool)
    (h1 : 1 ≤ r) (hnp : ¬∃ k, r = 2 ^ k) :
    pauli_decompose r r M hide none true
      = .ok (decomposeCore (Nat.clog 2 r)
          (fun v w =>
            if ofBits v < r ∧ ofBits w < r then M (ofBits v) (ofBits w) else 0)
          hide ((List.finRange (Nat.clog 2 r)).map Fin.val)) := by
  have h0 : r ≠ 0 := by omega
  have hrne : r ≠ 2 ^ Nat.clog 2 r := fun h => hnp ⟨Nat.clog 2 r, h⟩
  have hpne : (2 : ℕ) ^ Nat.clog 2 r ≠ 0 := by positivity
  have hlog : Nat.log2 (2 ^ Nat.clog 2 r) = Nat.clog 2 r := log2_two_pow _
  simp [pauli_decompose, h0, hrne, hpne, hlog]
  rw [hlog]

end Pauli

namespace Pauli

mutual

/-- The claim C3's precondition, as read from its words: the operator is not
expressible as a linear combination of Pauli words.  That is, recursively:
an unregistered operator variant; a tensor some factor of which is not a
pure Pauli word factor; a product containing a non-Pauli factor (the factor
itself non-expressible, at any nesting depth); a legacy weighted sum whose
terms are not all Pauli words; a sum with a non-expressible summand; or a
scalar product over a non-expressible base. -/
def nonPauliLC : Op → Bool
  | .other _ => true
  | .tensor fs => !isPauliWordAll fs
  | .prod fs => nonPauliLCAny fs
  | .sprod _ b => nonPauliLC b
  | .hamiltonian _ ops => !isPauliWordAll ops
  | .sum fs => nonPauliLCAny fs
  | .pauliX _ => false
  | .pauliY _ => false
  | .pauliZ _ => false
  | .identity _ => false

/-- Some operator of the list is not expressible as a linear combination of
Pauli words. -/
def nonPauliLCAny : List Op → Bool
  | [] => false
  | o :: t => nonPauliLC o || nonPauliLCAny t

end

theorem sentenceList_length :
    ∀ (l : List Op) (ss : List PauliSentence), sentenceList l = .ok ss → ss.length = l.length := by
  intro l
  induction l with
  | nil =>
    intro ss h
    rw [sentenceList] at h
    cases h
    rfl
  | cons o t ih =>
    intro ss h
    rw [sentenceList] at h
    cases ho : _pauli_sentence o with
    | error e =>
      rw [ho] at h
      cases h
    | ok ps =>
      rw [ho] at h
      cases ht : sentenceList t with
      | error e =>
        rw [ht] at h
        cases h
      | ok rest =>
        rw [ht] at h
        cases h
        simp [ih rest ht]

theorem wfAll_mem : ∀ (l : List Op) (f : Op), Op.wfAll l = true → f ∈ l → Op.wf f = true := by
  intro l
  induction l with
  | nil =>
    intro f _ hf
    cases hf
  | cons o t ih =>
    intro f hwf hf
    rw [Op.wfAll, Bool.and_eq_true] at hwf
    rcases List.mem_cons.mp hf with h | h
    · rw [h]
      exact hwf.1
    · exact ih f hwf.2 h

mutual

theorem error_form (op : Op) (hwf : Op.wf op = true) :
    ∀ m, _pauli_sentence op = .error m → ∃ bad, m = unsupportedMsg bad := by
  match op with
  | .pauliX w => intro m h; cases h
  | .pauliY w => intro m h; cases h
  | .pauliZ w => intro m h; cases h
  | .identity w => intro m h; cases h
  | .other s =>
    intro m h
    rw [_pauli_sentence] at h
    cases h
    exact ⟨.other s, rfl⟩
  | .tensor fs =>
    intro m h
    rw [_pauli_sentence] at h
    rw [Op.wf, Bool.and_eq_true] at hwf
    by_cases hg : isPauliWordOp (.tensor fs) = true
    · rw [if_pos hg] at h
      cases hs : sentenceList fs with
      | error e =>
        rw [hs] at h
        cases h
        exact error_form_list fs hwf.2 m hs
      | ok ss =>
        rw [hs] at h
        cases ss with
        | nil =>
          have hlen := sentenceList_length fs [] hs
          have : fs = [] := List.length_eq_zero.mp (by simpa using hlen.symm)
          rw [this] at hwf
          simp at hwf
        | cons s0 st =>
          simp [reduceMul] at h
    · rw [if_neg hg] at h
      cases h
      exact ⟨.tensor fs, rfl⟩
  | .prod fs =>
    intro m h
    rw [_pauli_sentence] at h
    rw [Op.wf, Bool.and_eq_true] at hwf
    cases hs : sentenceList fs with
    | error e =>
      rw [hs] at h
      cases h
      exact error_form_list fs hwf.2 m hs
    | ok ss =>
      rw [hs] at h
      cases ss with
      | nil =>
        have hlen := sentenceList_length fs [] hs
        have : fs = [] := List.length_eq_zero.mp (by simpa using hlen.symm)
        rw [this] at hwf
        simp at hwf
      | cons s0 st =>
        simp [reduceMul] at h
  | .sprod s b =>
    intro m h
    rw [_pauli_sentence] at h
    cases hb : _pauli_sentence b with
    | error e =>
      rw [hb] at h
      cases h
      exact error_form b (by rw [Op.wf] at hwf; exact hwf) m hb
    | ok ps =>
      rw [hb] at h
      cases h
  | .hamiltonian cs ops =>
    intro m h
    rw [_pauli_sentence] at h
    by_cases hg : isPauliWordAll ops = true
    · rw [if_pos hg] at h
      cases hw : weightedSummands cs ops with
      | error e =>
        rw [hw] at h
        cases h
        exact error_form_weighted cs ops (by rw [Op.wf] at hwf; exact hwf) m hw
      | ok ss =>
        rw [hw] at h
        cases ss with
        | nil => cases h
        | cons s0 st => cases h
    · rw [if_neg hg] at h
      cases h
      exact ⟨.hamiltonian cs ops, rfl⟩
  | .sum fs =>
    intro m h
    rw [_pauli_sentence] at h
    rw [Op.wf, Bool.and_eq_true] at hwf
    cases hs : sentenceList fs with
    | error e =>
      rw [hs] at h
      cases h
      exact error_form_list fs hwf.2 m hs
    | ok ss =>
      rw [hs] at h
      cases ss with
      | nil =>
        have hlen := sentenceList_length fs [] hs
        have : fs = [] := List.length_eq_zero.mp (by simpa using hlen.symm)
        rw [this] at hwf
        simp at hwf
      | cons s0 st =>
        simp [reduceAdd] at h

theorem error_form_list (l : List Op) (hwf : Op.wfAll l = true) :
    ∀ m, sentenceList l = .error m → ∃ bad, m = unsupportedMsg bad := by
  match l with
  | [] =>
    intro m h
    rw [sentenceList] at h
    cases h
  | o :: t =>
    intro m h
    rw [sentenceList] at h
    rw [Op.wfAll, Bool.and_eq_true] at hwf
    cases ho : _pauli_sentence o with
    | error e =>
      rw [ho] at h
      cases h
      exact error_form o hwf.1 m ho
    | ok ps =>
      rw [ho] at h
      cases ht : sentenceList t with
      | error e =>
        rw [ht] at h
        cases h
        exact error_form_list t hwf.2 m ht
      | ok rest =>
        rw [ht] at h
        cases h

theorem error_form_weighted (cs : List QC) (ops : List Op) (hwf : Op.wfAll ops = true) :
    ∀ m, weightedSummands cs ops = .error m → ∃ bad, m = unsupportedMsg bad := by
  match cs, ops with
  | _, [] =>
    intro m h
    rw [weightedSummands] at h
    cases h
  | [], o :: t =>
    intro m h
    rw [weightedSummands] at h
    cases h
  | c :: cs, o :: t =>
    intro m h
    rw [weightedSummands] at h
    rw [Op.wfAll, Bool.and_eq_true] at hwf
    cases ho : _pauli_sentence o with
    | error e =>
      rw [ho] at h
      cases h
      exact error_form o hwf.1 m ho
    | ok ps =>
      rw [ho] at h
      cases ht : weightedSummands cs t with
      | error e =>
        rw [ht] at h
        cases h
        exact error_form_weighted cs t hwf.2 m ht
      | ok rest =>
        rw [ht] at h
        cases h

end

end Pauli

namespace Pauli

theorem sentenceList_error_of_mem (l : List Op) (f : Op) (hf : f ∈ l) (m : String)
    (he : _pauli_sentence f = .error m) : ∃ m2, sentenceList l = .error m2 := by
  induction l with
  | nil => cases hf
  | cons o t ih =>
    cases ho : _pauli_sentence o with
    | error e =>
      refine ⟨e, ?_⟩
      rw [sentenceList, ho]
    | ok ps =>
      rcases List.mem_cons.mp hf with hfo | hft
      · rw [← hfo] at ho
        rw [he] at ho
        cases ho
      · obtain ⟨m2, hm2⟩ := ih hft
        refine ⟨m2, ?_⟩
        rw [sentenceList, ho, hm2]

mutual

/-- An operator that is not expressible as a linear combination of Pauli
words makes the conversion fail: the tensor and Hamiltonian guards fail
directly, the unregistered default raises, and for products, sums and
scalar products the recursive conversion of the offending child raises and
the error propagates out. -/
theorem nonPauli_error (op : Op) :
    nonPauliLC op = true → ∃ m, _pauli_sentence op = .error m := by
  match op with
  | .pauliX w => intro h; cases h
  | .pauliY w => intro h; cases h
  | .pauliZ w => intro h; cases h
  | .identity w => intro h; cases h
  | .other s =>
    intro _
    exact ⟨unsupportedMsg (.other s), rfl⟩
  | .tensor fs =>
    intro h
    rw [nonPauliLC] at h
    have hg : ¬(isPauliWordOp (.tensor fs) = true) := by
      rw [isPauliWordOp]
      simp only [Bool.not_eq_true] at h ⊢
      simpa using h
    refine ⟨unsupportedMsg (.tensor fs), ?_⟩
    rw [_pauli_sentence, if_neg hg]
  | .prod fs =>
    intro h
    rw [nonPauliLC] at h
    obtain ⟨m, hm⟩ := nonPauli_error_any fs h
    refine ⟨m, ?_⟩
    rw [_pauli_sentence, hm]
  | .sprod s b =>
    intro h
    rw [nonPauliLC] at h
    obtain ⟨m, hm⟩ := nonPauli_error b h
    refine ⟨m, ?_⟩
    rw [_pauli_sentence, hm]
  | .hamiltonian cs ops =>
    intro h
    rw [nonPauliLC] at h
    have hg : ¬(isPauliWordAll ops = true) := by
      simp only [Bool.not_eq_true] at h ⊢
      simpa using h
    refine ⟨unsupportedMsg (.hamiltonian cs ops), ?_⟩
    rw [_pauli_sentence, if_neg hg]
  | .sum fs =>
    intro h
    rw [nonPauliLC] at h
    obtain ⟨m, hm⟩ := nonPauli_error_any fs h
    refine ⟨m, ?_⟩
    rw [_pauli_sentence, hm]

/-- A list with a non-expressible member makes the in-order conversion of
the list fail (the member's error, or an earlier member's). -/
theorem nonPauli_error_any (l : List Op) :
    nonPauliLCAny l = true → ∃ m, sentenceList l = .error m := by
  match l with
  | [] => intro h; cases h
  | o :: t =>
    intro h
    rw [nonPauliLCAny, Bool.or_eq_true] at h
    cases ho : _pauli_sentence o with
    | error e =>
      refine ⟨e, ?_⟩
      rw [sentenceList, ho]
    | ok ps =>
      rcases h with h | h
      · obtain ⟨m, hm⟩ := nonPauli_error o h
        rw [hm] at ho
        cases ho
      · obtain ⟨m, hm⟩ := nonPauli_error_any t h
        refine ⟨m, ?_⟩
        rw [sentenceList, ho, hm]

end

end Pauli

/-! ## Claims -/

open Pauli Qubit

theorem three_not_pow2 : ¬∃ k, (3 : ℕ) = 2 ^ k := by
  rintro ⟨k, hk⟩
  rcases k with _ | _ | k
  · simp at hk
  · simp at hk
  · have h4 : (2 : ℕ) ^ 2 ≤ 2 ^ (k + 2) := Nat.pow_le_pow_right (by omega) (by omega)
    rw [← hk] at h4
    omega

/-- C1 (amended: the matrix must act on at least one qubit, `n ≥ 1`; see the
counterexample for `n = 0`): for every Hermitian matrix of size `2^n × 2^n`,
re-expanding the output of `pauli_decompose` as the sum over its terms of the
coefficient times the Kronecker product of the term's Pauli factors yields a
matrix equal to the input (exactly, in exact arithmetic). -/
theorem claim_C1_roundtrip (n : ℕ) (hn : 1 ≤ n) (M : ℕ → ℕ → QC)
    (hherm : ∀ a b : ℕ, a < 2 ^ n → b < 2 ^ n → QC.conj (M a b) = M b a) :
    ∃ d : DecompTerms,
      pauli_decompose (2 ^ n) (2 ^ n) M false none false = .ok d ∧
        ∀ a b : ℕ, a < 2 ^ n → b < 2 ^ n →
          reconstruct n d (toBits n a) (toBits n b) = M a b := by
  refine ⟨_, pauli_decompose_pow2 M false, ?_⟩
  intro a b ha hb
  rw [decomposeCore_roundtrip _ _ (by simp) hn]
  rw [ofBits_toBits a ha, ofBits_toBits b hb]

/-- C1, witness: the round-trip at the concrete Hermitian all-ones `2 × 2`
matrix. -/
theorem claim_C1_roundtrip_witness :
    (1 ≤ 1 ∧
      ∀ a b : ℕ, a < 2 ^ 1 → b < 2 ^ 1 →
        QC.conj ((fun _ _ => (1 : QC)) a b) = (fun _ _ => (1 : QC)) b a) ∧
    ∃ d : DecompTerms,
      pauli_decompose (2 ^ 1) (2 ^ 1) (fun _ _ => (1 : QC)) false none false = .ok d ∧
        ∀ a b : ℕ, a < 2 ^ 1 → b < 2 ^ 1 →
          reconstruct 1 d (toBits 1 a) (toBits 1 b) = (fun _ _ => (1 : QC)) a b := by
  have hherm : ∀ a b : ℕ, a < 2 ^ 1 → b < 2 ^ 1 →
      QC.conj ((fun _ _ => (1 : QC)) a b) = (fun _ _ => (1 : QC)) b a := by
    intro a b _ _
    ext <;> simp
  exact ⟨⟨by omega, hherm⟩, claim_C1_roundtrip 1 (by omega) (fun _ _ => 1) hherm⟩

/-- C1, counterexample: the claim fails at `n = 0`.  The `1 × 1` Hermitian
matrix `[[1]]` decomposes to no terms at all (the pure-identity term on zero
qubits is discarded), so the re-expansion is `0`, not `1`. -/
theorem claim_C1_roundtrip_counterexample :
    (∀ a b : ℕ, a < 2 ^ 0 → b < 2 ^ 0 →
        QC.conj ((fun _ _ => (1 : QC)) a b) = (fun _ _ => (1 : QC)) b a) ∧
    pauli_decompose (2 ^ 0) (2 ^ 0) (fun _ _ => (1 : QC)) false none false
        = .ok ⟨[], []⟩ ∧
    reconstruct 0 ⟨[], []⟩ (toBits 0 0) (toBits 0 0) = 0 ∧
    (0 : QC) ≠ 1 := by
  refine ⟨?_, ?_, rfl, ?_⟩
  · intro a b _ _
    ext <;> simp
  · rw [show (2 : ℕ) ^ 0 = 1 from rfl]
    exact pauli_decompose_one _ false
  · intro h
    exact zero_ne_one (congrArg QC.re h)

/-- C5 (amended: a square side not a power of two must be positive; for the
degenerate `0 × 0` matrix the code fails with an `OverflowError` from
`int(log2(0))` instead, see the counterexample): without `padding=True`, a
non-square matrix fails with the "matrix should be square" error, and a
square matrix of positive side that is not a power of two fails with the
dimension error naming the power-of-two constraint. -/
theorem claim_C5_validation :
    (∀ (rows cols : ℕ) (M : ℕ → ℕ → QC) (hide : Bool) (wo : Option (List ℕ)),
        rows ≠ cols →
          pauli_decompose rows cols M hide wo false = .error (squareMsg rows cols)) ∧
    (∀ (r : ℕ) (M : ℕ → ℕ → QC) (hide : Bool) (wo : Option (List ℕ)),
        1 ≤ r → (¬∃ k, r = 2 ^ k) →
          pauli_decompose r r M hide wo false = .error (powMsg r r)) :=
  ⟨fun rows cols M hide wo h => pauli_decompose_nonsquare rows cols M hide wo h,
    fun r M hide wo h1 hnp => pauli_decompose_notpow2 r M hide wo h1 hnp⟩

/-- C5, witness: the `2 × 3` matrix fails the square check and the `3 × 3`
matrix fails the power-of-two check. -/
theorem claim_C5_validation_witness :
    ((2 : ℕ) ≠ 3 ∧ (1 ≤ 3 ∧ ¬∃ k, (3 : ℕ) = 2 ^ k)) ∧
    pauli_decompose 2 3 (fun _ _ => (0 : QC)) false none false = .error (squareMsg 2 3) ∧
    pauli_decompose 3 3 (fun _ _ => (0 : QC)) false none false = .error (powMsg 3 3) :=
  ⟨⟨by omega, by omega, three_not_pow2⟩,
    claim_C5_validation.1 2 3 (fun _ _ => 0) false none (by omega),
    claim_C5_validation.2 3 (fun _ _ => 0) false none (by omega) three_not_pow2⟩

/-- C5, counterexample: the degenerate `0 × 0` matrix is square with a side
that is not a power of two, but the code fails with the `OverflowError` from
`int(log2(0))`, not with the power-of-two dimension error. -/
theorem claim_C5_validation_counterexample :
    pauli_decompose 0 0 (fun _ _ => (0 : QC)) false none false = .error overflowMsg ∧
      overflowMsg ≠ powMsg 0 0 :=
  ⟨pauli_decompose_zero_size _ false none, by decide⟩

/-- C6 (amended: the non-power-of-two square side must be positive; the
`0 × 0` matrix makes the padding block itself fail with an `OverflowError`,
see the counterexample): with `padding=True`, a square matrix of positive
side `r` that is not a power of two is zero-padded up to the next power of
two `2^clog2(r)` on both axes and the padded matrix is decomposed: the
re-expansion of the result equals the zero-padded matrix (the original
entries below `r`, zeros elsewhere), not the original `r × r` matrix. -/
theorem claim_C6_padding (r : ℕ) (M : ℕ → ℕ → QC) (h1 : 1 ≤ r)
    (hnp : ¬∃ k, r = 2 ^ k) :
    r < 2 ^ Nat.clog 2 r ∧
    ∃ d : DecompTerms,
      pauli_decompose r r M false none true = .ok d ∧
        ∀ a b : ℕ, a < 2 ^ Nat.clog 2 r → b < 2 ^ Nat.clog 2 r →
          reconstruct (Nat.clog 2 r) d (toBits (Nat.clog 2 r) a) (toBits (Nat.clog 2 r) b)
            = if a < r ∧ b < r then M a b else 0 := by
  have h3 : 3 ≤ r := by
    by_contra hlt
    push_neg at hlt
    interval_cases r
    · exact hnp ⟨0, rfl⟩
    · exact hnp ⟨1, rfl⟩
  have hc1 : 1 ≤ Nat.clog 2 r := Nat.clog_pos (by omega) (by omega)
  have hle : r ≤ 2 ^ Nat.clog 2 r := Nat.le_pow_clog (by omega) r
  have hlt : r < 2 ^ Nat.clog 2 r := by
    rcases Nat.lt_or_ge r (2 ^ Nat.clog 2 r) with h | h
    · exact h
    · exact absurd (le_antisymm hle h) fun he => hnp ⟨Nat.clog 2 r, he⟩
  refine ⟨hlt, _, pauli_decompose_padding M false h1 hnp, ?_⟩
  intro a b ha hb
  rw [decomposeCore_roundtrip _ _ (by simp) hc1]
  rw [ofBits_toBits a ha, ofBits_toBits b hb]

/-- C6, witness: the `3 × 3` case, padded to `4 × 4`. -/
theorem claim_C6_padding_witness :
    (1 ≤ 3 ∧ ¬∃ k, (3 : ℕ) = 2 ^ k) ∧
    (3 < 2 ^ Nat.clog 2 3 ∧
      ∃ d : DecompTerms,
        pauli_decompose 3 3 (fun _ _ => (0 : QC)) false none true = .ok d ∧
          ∀ a b : ℕ, a < 2 ^ Nat.clog 2 3 → b < 2 ^ Nat.clog 2 3 →
            reconstruct (Nat.clog 2 3) d (toBits (Nat.clog 2 3) a) (toBits (Nat.clog 2 3) b)
              = if a < 3 ∧ b < 3 then (fun _ _ => (0 : QC)) a b else 0) :=
  ⟨⟨by omega, three_not_pow2⟩, claim_C6_padding 3 (fun _ _ => 0) (by omega) three_not_pow2⟩

/-- C6, counterexample: at the degenerate `0 × 0` square (whose side is not
a power of two) the padding block fails with an `OverflowError` instead of
decomposing a zero-padded matrix. -/
theorem claim_C6_padding_counterexample :
    pauli_decompose 0 0 (fun _ _ => (0 : QC)) false none true = .error overflowMsg := by
  simp [pauli_decompose]

/-- C10: for a `1 × 1` matrix `[[c]]` with `c ≠ 0`, `pauli_decompose`
returns a decomposition with no terms at all — the pure-identity term on
zero qubits is discarded by the non-empty-observables guard — so the
re-expansion is `0` rather than `c`. -/
theorem claim_C10_one_by_one (c : QC) (hc : c ≠ 0) :
    pauli_decompose 1 1 (fun _ _ => c) false none false = .ok ⟨[], []⟩ ∧
      (∀ a b : Fin 0 → Bool, reconstruct 0 ⟨[], []⟩ a b = 0) ∧
      (0 : QC) ≠ c :=
  ⟨pauli_decompose_one _ false, fun _ _ => rfl, fun h => hc h.symm⟩

/-- C10, witness: the concrete entry `c = 1`. -/
theorem claim_C10_one_by_one_witness :
    ((1 : QC) ≠ 0) ∧
    (pauli_decompose 1 1 (fun _ _ => (1 : QC)) false none false = .ok ⟨[], []⟩ ∧
      (∀ a b : Fin 0 → Bool, reconstruct 0 ⟨[], []⟩ a b = 0) ∧
      (0 : QC) ≠ 1) := by
  have h1 : (1 : QC) ≠ 0 := fun h => one_ne_zero (congrArg QC.re h)
  exact ⟨h1, claim_C10_one_by_one 1 h1⟩

/-- C2 (amended: an expectation-value process with no observable attached
does not fall through to the diagonalizing-gate strategy — the unguarded
`mp.obs.name` access raises an `AttributeError` instead; see the
counterexample): `measure` selects its strategy in priority order — not a
state measurement: not-implemented error; an expectation value whose
observable's declared name is "Hamiltonian" or "SparseHamiltonian": the
sparse-Hamiltonian strategy; an expectation value with no observable: the
attribute error; every other case: the diagonalizing-gate strategy. -/
theorem claim_C2_dispatch (mp : MeasurementProcess) :
    get_measurement_function mp = amendedDispatchC2 mp ∧
      ∀ (S R : Type) (diagFn spFn : MeasurementProcess → S → R) (st : S),
        measure diagFn spFn mp st =
          match amendedDispatchC2 mp with
          | .error e => .error e
          | .ok .stateDiagonalizingGates => .ok (diagFn mp st)
          | .ok .stateHamiltonianExpval => .ok (spFn mp st) := by
  have h1 : get_measurement_function mp = amendedDispatchC2 mp := by
    rcases mp with ⟨kind, obs⟩
    cases kind <;> rcases obs with _ | o <;>
      simp [get_measurement_function, amendedDispatchC2, MPKind.isStateMeasurement]
  refine ⟨h1, ?_⟩
  intro S R diagFn spFn st
  rw [Qubit.measure, h1]

/-- C2, counterexample: at the expectation-value process with no observable,
the dispatch raises the attribute error, while the claim as stated sends
every non-matching case to the diagonalizing-gate strategy. -/
theorem claim_C2_dispatch_counterexample :
    get_measurement_function ⟨.expectation, none⟩ = .error .attributeErrorNoneObs ∧
    claimedDispatchC2 ⟨.expectation, none⟩ = .ok .stateDiagonalizingGates ∧
    get_measurement_function ⟨.expectation, none⟩
      ≠ claimedDispatchC2 ⟨.expectation, none⟩ := by
  refine ⟨by simp [get_measurement_function, MPKind.isStateMeasurement], ?_, ?_⟩
  · simp [claimedDispatchC2, MPKind.isStateMeasurement]
  · simp [get_measurement_function, claimedDispatchC2, MPKind.isStateMeasurement]

/-- C9: an expectation-value measurement process whose observable is absent
does not fall through to the diagonalizing-gate strategy: the dispatch
dereferences the missing observable's name unguarded and fails with the
attribute error, and so does `measure`. -/
theorem claim_C9_none_obs (mp : MeasurementProcess) (hk : mp.kind = .expectation)
    (ho : mp.obs = none) :
    get_measurement_function mp = .error .attributeErrorNoneObs ∧
      (∀ f : MeasurementFn, get_measurement_function mp ≠ .ok f) ∧
      ∀ (S R : Type) (diagFn spFn : MeasurementProcess → S → R) (st : S),
        measure diagFn spFn mp st = .error .attributeErrorNoneObs := by
  have h1 : get_measurement_function mp = .error .attributeErrorNoneObs := by
    rcases mp with ⟨kind, obs⟩
    simp only at hk ho
    rw [hk] at *
    rw [ho]
    simp [get_measurement_function, MPKind.isStateMeasurement]
  refine ⟨h1, ?_, ?_⟩
  · intro f h
    rw [h1] at h
    cases h
  · intro S R diagFn spFn st
    rw [Qubit.measure, h1]

/-- C9, witness: the concrete observable-less expectation process. -/
theorem claim_C9_none_obs_witness :
    get_measurement_function ⟨.expectation, none⟩ = .error .attributeErrorNoneObs ∧
      (∀ f : MeasurementFn,
        get_measurement_function ⟨.expectation, none⟩ ≠ .ok f) ∧
      ∀ (S R : Type) (diagFn spFn : MeasurementProcess → S → R) (st : S),
        measure diagFn spFn ⟨.expectation, none⟩ st = .error .attributeErrorNoneObs :=
  claim_C9_none_obs ⟨.expectation, none⟩ rfl rfl

/-- C4: for every state vector and observable with a sparse-matrix
representation, the sparse-expectation path returns exactly the real part of
the contraction `conj(state) · H · state`, so its result has zero imaginary
component. -/
theorem claim_C4_real_part {N : ℕ} (H : Fin N → Fin N → QC) (s : Fin N → QC) :
    state_hamiltonian_expval H s = (quadForm H s).re ∧
      (QC.ofRat (state_hamiltonian_expval H s)).im = 0 := by
  constructor
  · show (∑ a, QC.conj (s a) * ∑ b, H a b * s b).re = (quadForm H s).re
    congr 1
    rw [quadForm]
    refine Finset.sum_congr rfl fun a _ => ?_
    rw [Finset.mul_sum]
    refine Finset.sum_congr rfl fun b _ => ?_
    ring
  · rfl

/-- C7: an operator carrying a cached `PauliSentence` representation is
returned directly by `pauli_sentence`: no conversion and no validation of
the operator's variant happens, whatever the operator is. -/
theorem claim_C7_cache (ps : PauliSentence) (op : Op) :
    pauli_sentence (some ps) op = .ok ps := rfl

/-- C3: an operator without a cached `PauliSentence` that is not expressible
as a linear combination of Pauli words — an unregistered variant, a tensor
or product containing a non-Pauli factor (at any nesting depth), a legacy
weighted sum whose terms are not all Pauli words, a sum with a
non-expressible summand, or a scalar product over a non-expressible base —
is rejected by `pauli_sentence` with the descriptive error naming an
offending operator (`Op.wf` rules out composites with no operands, which
the framework's constructors cannot build). -/
theorem claim_C3_rejection (op : Op) (hwf : Op.wf op = true)
    (hnp : nonPauliLC op = true) :
    ∃ bad : Op, pauli_sentence none op = .error (unsupportedMsg bad) := by
  obtain ⟨m, hm⟩ := nonPauli_error op hnp
  obtain ⟨bad, hbad⟩ := error_form op hwf m hm
  refine ⟨bad, ?_⟩
  show _pauli_sentence op = _
  rw [hm, hbad]

/-- C3, witness: a product of a Pauli with a scalar multiple of a continuous
rotation gate — the non-Pauli factor sits one nesting level down. -/
theorem claim_C3_rejection_witness :
    Op.wf (Op.prod [Op.pauliX 0, Op.sprod (QC.ofRat 2) (Op.other "RX")]) = true ∧
    nonPauliLC (Op.prod [Op.pauliX 0, Op.sprod (QC.ofRat 2) (Op.other "RX")]) = true ∧
    ∃ bad : Op,
      pauli_sentence none (Op.prod [Op.pauliX 0, Op.sprod (QC.ofRat 2) (Op.other "RX")])
        = .error (unsupportedMsg bad) := by
  have hwf : Op.wf (Op.prod [Op.pauliX 0, Op.sprod (QC.ofRat 2) (Op.other "RX")]) = true := by
    simp [Op.wf, Op.wfAll]
  have hnp : nonPauliLC (Op.prod [Op.pauliX 0, Op.sprod (QC.ofRat 2) (Op.other "RX")])
      = true := by
    simp [nonPauliLC, nonPauliLCAny]
  exact ⟨hwf, hnp, claim_C3_rejection _ hwf hnp⟩

/-- C8: converting a scalar product converts the base and multiplies every
coefficient by the scalar — the scalar action (spec §4.1
`sentence_scalar_multiply`) commutes with conversion. -/
theorem claim_C8_sprod (s : QC) (base : Op) (ps : PauliSentence)
    (hbase : pauli_sentence none base = .ok ps) :
    pauli_sentence none (Op.sprod s base) = .ok (sScale s ps) := by
  have hb : _pauli_sentence base = .ok ps := hbase
  show _pauli_sentence (Op.sprod s base) = .ok (sScale s ps)
  rw [_pauli_sentence, hb]
  show Except.ok (ps.map fun wc => (wc.1, wc.2 * s)) = Except.ok (sScale s ps)
  congr 1
  rw [sScale]
  exact List.map_congr_left fun wc _ => by rw [mul_comm]

/-- C8, witness: scaling `PauliX(0)` by the imaginary unit. -/
theorem claim_C8_sprod_witness :
    pauli_sentence none (Op.pauliX 0) = .ok [([(0, PLetter.X)], 1)] ∧
    pauli_sentence none (Op.sprod QC.i (Op.pauliX 0))
      = .ok (sScale QC.i [([(0, PLetter.X)], 1)]) := by
  have hb : pauli_sentence none (Op.pauliX 0) = .ok [([(0, PLetter.X)], 1)] := by
    show _pauli_sentence (Op.pauliX 0) = _
    rw [_pauli_sentence]
  exact ⟨hb, claim_C8_sprod QC.i (Op.pauliX 0) _ hb⟩

